import Mathlib

/-!
Verification of the cleanipy duplicate-detection and consolidation core.

The Python source is shallowly embedded as follows:

* The filesystem walk (os.walk) is the environment: the detector functions
  take the list of files the walk yields, in walk order, instead of a
  directory path.  Each walked file is an FSFile record carrying its path,
  its content (a list of bytes), its modification time, whether it is a
  symbolic link, and whether opening/reading it succeeds (readOk models the
  PermissionError/FileNotFoundError cases that get_file_hash swallows).
* os.path.getsize is the byte length of the file's content (snapshot
  semantics; the spec's FileRecord is an immutable snapshot, so no mid-scan
  races are modelled).
* The SHA-256 hash of file_utils.get_file_hash is an abstract parameter
  h : List Nat -> Nat applied to the file's content; a failed read yields
  none (the Python function returns the empty string, which the caller
  treats as a failure marker).
* Python dicts preserve insertion order; defaultdict(list) is embedded as an
  association list built by addToBucket, which appends to an existing key's
  list or appends a fresh key at the end.
* Python floats in size_utils are modelled as exact arithmetic: the two
  decimal places of format_size are produced by round-half-to-even on the
  exact rational value, and parse_size multiplies the exact decimal value
  before flooring (int() truncation on a non-negative value).
* The cleaner's filesystem side effects run over an explicit state: an
  association list of path/node pairs plus the list of paths moved to trash.
  An Env record carries the outcome oracles for send2trash, os.remove and
  link creation (permission failures), the modification times read by
  os.path.getmtime, and os.path.abspath.  Exceptions are embedded as Option.
* The progress callback is embedded by accumulating the list of paths it is
  invoked with; the Python callback returns nothing and the code ignores
  its result, so this captures exactly the observable calls.
-/

namespace Cleanipy

/-! ### size_utils.py -/

/-- The unit table of format_size. -/
def size_units : List String := ["B", "KB", "MB", "GB", "TB", "PB"]

/-- Round a / b (for b > 0) to the nearest integer, ties to even.  This is
the rounding performed by Python's two-decimal float formatting, applied to
the exact value. -/
def roundHalfEven (a b : Nat) : Nat :=
  let q := a / b
  let r := a % b
  if 2 * r < b then q
  else if b < 2 * r then q + 1
  else if q % 2 = 0 then q else q + 1

/-- Two-digit zero-padded decimal rendering of a value below 100. -/
def pad2 (k : Nat) : String :=
  if k < 10 then "0" ++ toString k else toString k

/-- The expression min(5, math.floor(math.log(size_bytes, 1024))) of
format_size, written as a case split so that it evaluates inside the
kernel; unitIndex_eq_log below checks it against Nat.log. -/
def unitIndex (n : Nat) : Nat :=
  if 1024 ^ 5 ≤ n then 5
  else if 1024 ^ 4 ≤ n then 4
  else if 1024 ^ 3 ≤ n then 3
  else if 1024 ^ 2 ≤ n then 2
  else if 1024 ≤ n then 1
  else 0

/-- Embedding of size_utils.format_size.  unit_index is
min(5, floor(log_1024 size_bytes)).  The f-string with two decimals is
rendered from the exact value of size_bytes / 1024 ^ unit_index. -/
def format_size (size_bytes : Nat) : String :=
  if size_bytes = 0 then "0 B"
  else
    let unit_index := unitIndex size_bytes
    if unit_index = 0 then
      toString size_bytes ++ " B"
    else
      let base := 1024 ^ unit_index
      let k := roundHalfEven (100 * size_bytes) base
      toString (k / 100) ++ "." ++ pad2 (k % 100) ++ " " ++ (size_units.getD unit_index "")

/-- Character class of the regex fragment [\d.] (ASCII scope). -/
def isSizeNumChar (c : Char) : Bool := c.isDigit || c == '.'

/-- Character class of the regex fragment [A-Z]. -/
def isAsciiUpper (c : Char) : Bool := decide ('A' ≤ c) && decide (c ≤ 'Z')

/-- Matching of the parse_size regex ([\d.]+)\s*([A-Z]+) anchored at both
ends: a nonempty run of digits and dots, optional whitespace, and a nonempty
run of capital letters reaching the end of the string.  The three character
classes are disjoint, so greedy matching is the unique match. -/
def matchSizeRegex (cs : List Char) : Option (List Char × List Char) :=
  let num := cs.takeWhile isSizeNumChar
  let rest := (cs.dropWhile isSizeNumChar).dropWhile Char.isWhitespace
  if num.isEmpty then none
  else if rest.isEmpty then none
  else if rest.all isAsciiUpper then some (num, rest) else none

/-- Value of a run of decimal digits. -/
def digitsToNat (cs : List Char) : Nat :=
  cs.foldl (fun acc c => 10 * acc + (c.toNat - '0'.toNat)) 0

/-- Python float() applied to a [\d.]+ token: accepted when it has at most
one dot and at least one digit; the value is mantissa / 10 ^ scale. -/
def parseFloatDigits (cs : List Char) : Option (Nat × Nat) :=
  let intPart := cs.takeWhile Char.isDigit
  let rest := cs.dropWhile Char.isDigit
  match rest with
  | [] => if intPart.isEmpty then none else some (digitsToNat intPart, 0)
  | '.' :: frac =>
      if frac.all Char.isDigit then
        if intPart.isEmpty && frac.isEmpty then none
        else some (digitsToNat intPart * 10 ^ frac.length + digitsToNat frac, frac.length)
      else none
  | _ => none

/-- The unit multiplier table of parse_size. -/
def unitMultiplier (u : String) : Option Nat :=
  if u = "B" then some 1
  else if u = "KB" then some 1024
  else if u = "MB" then some (1024 ^ 2)
  else if u = "GB" then some (1024 ^ 3)
  else if u = "TB" then some (1024 ^ 4)
  else if u = "PB" then some (1024 ^ 5)
  else none

/-- Python str.strip: drop whitespace from both ends (ASCII scope). -/
def stripChars (cs : List Char) : List Char :=
  ((cs.dropWhile Char.isWhitespace).reverse.dropWhile Char.isWhitespace).reverse

/-- Embedding of size_utils.parse_size.  The ValueError raises for a failed
regex match, an invalid numeric part, or an unknown unit are embedded as
none.  int(float(value) * units[unit]) on the exact value of a non-negative
decimal literal is the floor of mantissa * multiplier / 10 ^ scale. -/
def parse_size (size_str : String) : Option Nat :=
  let t := (stripChars size_str.data).map Char.toUpper
  match matchSizeRegex t with
  | none => none
  | some (num, unitChars) =>
    match parseFloatDigits num with
    | none => none
    | some (v, scale) =>
      match unitMultiplier (String.mk unitChars) with
      | none => none
      | some m => some (v * m / 10 ^ scale)

example : format_size 0 = "0 B" := by decide
example : format_size 1536 = "1.50 KB" := by decide
example : format_size 1023 = "1023 B" := by decide
example : parse_size "1 MB" = some 1048576 := by decide
example : parse_size "1.50 KB" = some 1536 := by decide
example : parse_size "  1.5kb " = some 1536 := by decide
example : parse_size "1.5.2 KB" = none := by decide
example : parse_size "KB" = none := by decide
example : parse_size "12 XB" = none := by decide

/-- Fidelity check: unitIndex is min(5, floor(log_1024 n)) for positive n. -/
theorem unitIndex_eq_log (n : Nat) (h : 0 < n) :
    unitIndex n = min 5 (Nat.log 1024 n) := by
  have hb : (1 : Nat) < 1024 := by norm_num
  have hiff : ∀ m : Nat, 1024 ^ m ≤ n ↔ m ≤ Nat.log 1024 n := fun m =>
    Nat.pow_le_iff_le_log hb h.ne'
  have e1 : (1024 ≤ n) = (1 ≤ Nat.log 1024 n) := propext (by simpa using hiff 1)
  unfold unitIndex
  simp only [propext (hiff 5), propext (hiff 4), propext (hiff 3), propext (hiff 2), e1]
  split_ifs <;> omega

/-! ### file_utils.py and the walked filesystem -/

/-- A file yielded by the os.walk of the scanned directory, in walk order.
content is the byte sequence of the file; readOk records whether opening
and reading it succeeds (the PermissionError / FileNotFoundError cases that
get_file_hash swallows into an empty-string result). -/
structure FSFile where
  path : String
  content : List Nat
  mtime : Nat
  isLink : Bool
  readOk : Bool
deriving DecidableEq, Repr

/-- Embedding of file_utils.get_file_size: os.path.getsize is the byte
length of the file's content (snapshot semantics). -/
def get_file_size (f : FSFile) : Nat := f.content.length

/-- Embedding of file_utils.get_file_hash for an abstract hash function h
of the streamed content.  A failed open or read returns the empty string in
the source, which callers treat as failure; it is embedded as none. -/
def get_file_hash (h : List Nat → Nat) (f : FSFile) : Option Nat :=
  if f.readOk then some (h f.content) else none

/-! ### duplicate_analyzer.py -/

/-- Model of defaultdict(list) with Python's insertion-ordered keys:
append the value to the entry of the given key, or add a fresh key at the
end. -/
def addToBucket {κ ν : Type} [DecidableEq κ] :
    List (κ × List ν) → κ → ν → List (κ × List ν)
  | [], k, x => [(k, [x])]
  | (k', xs) :: rest, k, x =>
    if k' = k then (k', xs ++ [x]) :: rest else (k', xs) :: addToBucket rest k x

/-- Bucket lookup: the list stored under a key, or the empty list. -/
def getBucket {κ ν : Type} [DecidableEq κ] : List (κ × List ν) → κ → List ν
  | [], _ => []
  | (k', xs) :: rest, k => if k' = k then xs else getBucket rest k

/-- Embedding of duplicate_analyzer.find_duplicate_files_by_size.  The
directory argument is replaced by the list of files produced by the os.walk
of that directory, in walk order.  Symbolic links are skipped, files whose
size reaches min_size are bucketed by exact size, and buckets with a single
member are discarded. -/
def find_duplicate_files_by_size (walked : List FSFile) (min_size : Nat) :
    List (Nat × List FSFile) :=
  let size_dict := walked.foldl
    (fun d f =>
      if f.isLink then d
      else if min_size ≤ get_file_size f then addToBucket d (get_file_size f) f
      else d) []
  size_dict.filter (fun kv => 1 < kv.2.length)

/-- A member record of a duplicate group, as built by
find_duplicate_files_by_content: path, size in bytes, and the
human-readable size. -/
structure DupEntry where
  path : String
  size_bytes : Nat
  size : String
deriving DecidableEq, Repr

/-- Embedding of duplicate_analyzer.find_duplicate_files_by_content for an
abstract content-hash function h.  Every file of every surviving size
bucket is hashed; files whose hash computation fails are skipped; the
remaining ones are bucketed by hash value, and hash groups with a single
member are discarded. -/
def find_duplicate_files_by_content (h : List Nat → Nat) (walked : List FSFile)
    (min_size : Nat) : List (Nat × List DupEntry) :=
  let size_dict := find_duplicate_files_by_size walked min_size
  let hash_dict := size_dict.foldl
    (fun d kv =>
      kv.2.foldl (fun d f =>
        match get_file_hash h f with
        | some hv => addToBucket d hv ⟨f.path, kv.1, format_size kv.1⟩
        | none => d) d) []
  hash_dict.filter (fun kv => 1 < kv.2.length)

/-- The files whose content hash find_duplicate_files_by_content computes:
exactly the members of the surviving size buckets, in processing order. -/
def hashedFiles (walked : List FSFile) (min_size : Nat) : List FSFile :=
  (find_duplicate_files_by_size walked min_size).flatMap (fun kv => kv.2)

section AnalyzerExamples

/-- Walk used by the concrete checks: two duplicate 4-byte files, one
distinct 4-byte file, a small twin of the first content, and a symlink. -/
def exWalk : List FSFile :=
  [ ⟨"/d/a", [120, 120, 120, 120], 10, false, true⟩,
    ⟨"/d/b", [121, 121, 121, 121], 11, false, true⟩,
    ⟨"/d/c", [120, 120, 120, 120], 12, false, true⟩,
    ⟨"/d/small", [120, 120], 13, false, true⟩,
    ⟨"/d/link", [120, 120, 120, 120], 14, true, true⟩ ]

example :
    find_duplicate_files_by_content (fun c => c.foldl (fun a b => 256 * a + b) 1) exWalk 3 =
      [(0x0178787878,
        [⟨"/d/a", 4, "4 B"⟩, ⟨"/d/c", 4, "4 B"⟩])] := by decide

example : (hashedFiles exWalk 3).map FSFile.path = ["/d/a", "/d/b", "/d/c"] := by decide

example : find_duplicate_files_by_content (fun _ => 0) [] 1024 = [] := by decide

end AnalyzerExamples

/-! ### duplicate_cleaner.py -/

/-- A filesystem node as the cleaner observes it: a regular file or a
symbolic link with its stored target string. -/
inductive FSNode where
  | file (content : List Nat) (mtime : Nat)
  | link (target : String)
deriving DecidableEq, Repr

/-- Mutable filesystem state of a consolidation run: the directory entries
and the list of paths moved to the recoverable trash. -/
structure FSState where
  entries : List (String × FSNode)
  trash : List String
deriving DecidableEq, Repr

/-- Lookup of a path among the directory entries. -/
def lookupFS : List (String × FSNode) → String → Option FSNode
  | [], _ => none
  | (p, n) :: rest, q => if p = q then some n else lookupFS rest q

/-- Removal of a path from the directory entries. -/
def eraseFS : List (String × FSNode) → String → List (String × FSNode)
  | [], _ => []
  | (p, n) :: rest, q => if p = q then eraseFS rest q else (p, n) :: eraseFS rest q

/-- Binding a path to a node (replacing any previous entry). -/
def setFS (es : List (String × FSNode)) (p : String) (n : FSNode) :
    List (String × FSNode) :=
  eraseFS es p ++ [(p, n)]

/-- Environment of a consolidation run: the modification times read by
os.path.getmtime, the permission oracles deciding whether send2trash,
os.remove and link creation succeed on a given path, and os.path.abspath. -/
structure Env where
  mtimeOf : String → Nat
  trashOk : String → Bool
  removeOk : String → Bool
  linkOk : String → Bool
  abspath : String → String

/-- send2trash: succeeds when the path exists and the trash mechanism
works for it; the file leaves the directory entries and its path is
appended to the trash.  Failure (the exception) is none. -/
def send2trash (e : Env) (s : FSState) (p : String) : Option FSState :=
  if (lookupFS s.entries p).isSome && e.trashOk p then
    some { entries := eraseFS s.entries p, trash := s.trash ++ [p] }
  else none

/-- os.remove: permanent deletion; fails when the path is absent
(FileNotFoundError) or not permitted (PermissionError / OSError). -/
def os_remove (e : Env) (s : FSState) (p : String) : Option FSState :=
  if (lookupFS s.entries p).isSome && e.removeOk p then
    some { s with entries := eraseFS s.entries p }
  else none

/-- os.link src tgt: hard-link creation; fails when the source is absent,
the target already exists (FileExistsError), or creation is not permitted
(for instance across filesystems).  The new entry shares the source's
node. -/
def os_link (e : Env) (s : FSState) (src tgt : String) : Option FSState :=
  match lookupFS s.entries src with
  | some n =>
      if e.linkOk tgt && (lookupFS s.entries tgt).isNone then
        some { s with entries := setFS s.entries tgt n }
      else none
  | none => none

/-- os.symlink target linkPath: symbolic-link creation at linkPath whose
stored target is the given string; fails when linkPath already exists or
creation is not permitted.  A dangling target is allowed. -/
def os_symlink (e : Env) (s : FSState) (target linkPath : String) : Option FSState :=
  if e.linkOk linkPath && (lookupFS s.entries linkPath).isNone then
    some { s with entries := setFS s.entries linkPath (FSNode.link target) }
  else none

/-- The descending modification-time relation used by
sorted(files, key=lambda x: getmtime(x[path]), reverse=True). -/
def mtimeGE (e : Env) (a b : DupEntry) : Prop :=
  e.mtimeOf b.path ≤ e.mtimeOf a.path

instance (e : Env) : DecidableRel (mtimeGE e) := fun _ _ => Nat.decLe _ _

instance (e : Env) : IsTotal DupEntry (mtimeGE e) :=
  ⟨fun a b => Nat.le_total (e.mtimeOf b.path) (e.mtimeOf a.path)⟩

instance (e : Env) : IsTrans DupEntry (mtimeGE e) :=
  ⟨fun _ _ _ h1 h2 => Nat.le_trans h2 h1⟩

instance (e : Env) : IsRefl DupEntry (mtimeGE e) := ⟨fun _ => Nat.le_refl _⟩

/-- Embedding of sorted(files, key=..getmtime.., reverse=True): Python's
sort is stable, and with reverse=True records with equal keys keep their
original order, which is exactly a stable insertion sort along mtimeGE. -/
def sortDesc (e : Env) (files : List DupEntry) : List DupEntry :=
  List.insertionSort (mtimeGE e) files

/-- files_sorted[1:] if keep_newest else files_sorted[:-1] — the members a
consolidation pass processes. -/
def files_to_remove (e : Env) (keep_newest : Bool) (files : List DupEntry) :
    List DupEntry :=
  if keep_newest then (sortDesc e files).tail else (sortDesc e files).dropLast

/-- files_sorted[0] if keep_newest else files_sorted[-1] — the member every
strategy keeps.  none only for an empty group, where the source expression
would raise IndexError. -/
def survivorEntry (e : Env) (keep_newest : Bool) (files : List DupEntry) :
    Option DupEntry :=
  if keep_newest then (sortDesc e files).head? else (sortDesc e files).getLast?

/-- The source_file path of the hard-link and symlink passes. -/
def source_file (e : Env) (keep_newest : Bool) (files : List DupEntry) :
    Option String :=
  (survivorEntry e keep_newest files).map DupEntry.path

/-- A per-member record of clean_duplicate_files. -/
structure DeleteDetail where
  path : String
  size_bytes : Nat
  size : String
  success : Bool
  error : Option String
deriving DecidableEq, Repr

/-- A per-member record of the hard-link and symlink passes. -/
structure LinkDetail where
  source : String
  target : String
  size_bytes : Nat
  size : String
  success : Bool
  error : Option String
deriving DecidableEq, Repr

/-- The running result of a consolidation pass: the aggregate counters and
detail list of the returned dictionary, the filesystem state, and the list
of paths the progress callback has been invoked with. -/
structure RunAcc (δ : Type) where
  total_size_bytes : Nat
  total_count : Nat
  details : List δ
  fs : FSState
  calls : List String
deriving DecidableEq, Repr

/-- The initial accumulator of a run over the starting filesystem state. -/
def initAcc (δ : Type) (s : FSState) : RunAcc δ :=
  ⟨0, 0, [], s, []⟩

/-- One member of the delete strategy: send2trash first; on failure fall
back to os.remove; only when both fail is a failure record with an error
message appended.  The callback fires after either success. -/
def processDeleteMember (e : Env) (acc : RunAcc DeleteDetail)
    (file_info : DupEntry) : RunAcc DeleteDetail :=
  match send2trash e acc.fs file_info.path with
  | some s' =>
      { acc with
        fs := s'
        total_size_bytes := acc.total_size_bytes + file_info.size_bytes
        total_count := acc.total_count + 1
        details := acc.details ++
          [⟨file_info.path, file_info.size_bytes, file_info.size, true, none⟩]
        calls := acc.calls ++ [file_info.path] }
  | none =>
      match os_remove e acc.fs file_info.path with
      | some s' =>
          { acc with
            fs := s'
            total_size_bytes := acc.total_size_bytes + file_info.size_bytes
            total_count := acc.total_count + 1
            details := acc.details ++
              [⟨file_info.path, file_info.size_bytes, file_info.size, true, none⟩]
            calls := acc.calls ++ [file_info.path] }
      | none =>
          { acc with
            details := acc.details ++
              [⟨file_info.path, file_info.size_bytes, file_info.size, false,
                some "OSError"⟩] }

/-- Embedding of duplicate_cleaner.clean_duplicate_files on an
already-computed duplicates dictionary (the duplicates=None default defers
to find_duplicate_files_by_content).  The final total_size field of the
result dictionary is format_size of total_size_bytes and is not repeated
here. -/
def clean_duplicate_files (e : Env) (s : FSState)
    (duplicates : List (Nat × List DupEntry)) (keep_newest : Bool) :
    RunAcc DeleteDetail :=
  duplicates.foldl
    (fun acc kv =>
      (files_to_remove e keep_newest kv.2).foldl (processDeleteMember e) acc)
    (initAcc DeleteDetail s)

/-- One member of the hard-link strategy: os.remove the member, then
os.link the source onto its path; any failure yields a failure record and
the callback does not fire. -/
def processHardlinkMember (e : Env) (src : String) (acc : RunAcc LinkDetail)
    (file_info : DupEntry) : RunAcc LinkDetail :=
  match os_remove e acc.fs file_info.path with
  | some s' =>
      match os_link e s' src file_info.path with
      | some s'' =>
          { acc with
            fs := s''
            total_size_bytes := acc.total_size_bytes + file_info.size_bytes
            total_count := acc.total_count + 1
            details := acc.details ++
              [⟨src, file_info.path, file_info.size_bytes, file_info.size, true, none⟩]
            calls := acc.calls ++ [file_info.path] }
      | none =>
          { acc with
            fs := s'
            details := acc.details ++
              [⟨src, file_info.path, file_info.size_bytes, file_info.size, false,
                some "OSError"⟩] }
  | none =>
      { acc with
        details := acc.details ++
          [⟨src, file_info.path, file_info.size_bytes, file_info.size, false,
            some "OSError"⟩] }

/-- One group of replace_duplicates_with_hardlinks.  An empty group makes
the source files_sorted[0] (or [-1]) raise IndexError; the claims are
stated for nonempty groups, where source_file is some. -/
def cleanGroupHardlink (e : Env) (keep_newest : Bool) (acc : RunAcc LinkDetail)
    (files : List DupEntry) : RunAcc LinkDetail :=
  match source_file e keep_newest files with
  | some src =>
      (files_to_remove e keep_newest files).foldl (processHardlinkMember e src) acc
  | none => acc

/-- Embedding of duplicate_cleaner.replace_duplicates_with_hardlinks. -/
def replace_duplicates_with_hardlinks (e : Env) (s : FSState)
    (duplicates : List (Nat × List DupEntry)) (keep_newest : Bool) :
    RunAcc LinkDetail :=
  duplicates.foldl (fun acc kv => cleanGroupHardlink e keep_newest acc kv.2)
    (initAcc LinkDetail s)

/-- One member of the symlink strategy: os.remove the member, then
os.symlink(os.path.abspath(source), member).  The detail records the
source path as written, not its absolute form. -/
def processSymlinkMember (e : Env) (src : String) (acc : RunAcc LinkDetail)
    (file_info : DupEntry) : RunAcc LinkDetail :=
  match os_remove e acc.fs file_info.path with
  | some s' =>
      match os_symlink e s' (e.abspath src) file_info.path with
      | some s'' =>
          { acc with
            fs := s''
            total_size_bytes := acc.total_size_bytes + file_info.size_bytes
            total_count := acc.total_count + 1
            details := acc.details ++
              [⟨src, file_info.path, file_info.size_bytes, file_info.size, true, none⟩]
            calls := acc.calls ++ [file_info.path] }
      | none =>
          { acc with
            fs := s'
            details := acc.details ++
              [⟨src, file_info.path, file_info.size_bytes, file_info.size, false,
                some "OSError"⟩] }
  | none =>
      { acc with
        details := acc.details ++
          [⟨src, file_info.path, file_info.size_bytes, file_info.size, false,
            some "OSError"⟩] }

/-- One group of replace_duplicates_with_symlinks. -/
def cleanGroupSymlink (e : Env) (keep_newest : Bool) (acc : RunAcc LinkDetail)
    (files : List DupEntry) : RunAcc LinkDetail :=
  match source_file e keep_newest files with
  | some src =>
      (files_to_remove e keep_newest files).foldl (processSymlinkMember e src) acc
  | none => acc

/-- Embedding of duplicate_cleaner.replace_duplicates_with_symlinks. -/
def replace_duplicates_with_symlinks (e : Env) (s : FSState)
    (duplicates : List (Nat × List DupEntry)) (keep_newest : Bool) :
    RunAcc LinkDetail :=
  duplicates.foldl (fun acc kv => cleanGroupSymlink e keep_newest acc kv.2)
    (initAcc LinkDetail s)

section CleanerExamples

/-- Environment of the concrete checks: everything succeeds, paths are
already absolute, and mtimes make the order b newer than a newer than c. -/
def exEnv : Env :=
  { mtimeOf := fun p => if p = "/d/b" then 30 else if p = "/d/a" then 20 else 10
    trashOk := fun _ => true
    removeOk := fun _ => true
    linkOk := fun _ => true
    abspath := fun p => p }

def exState : FSState :=
  { entries :=
      [ ("/d/a", FSNode.file [7, 7] 20),
        ("/d/b", FSNode.file [7, 7] 30),
        ("/d/c", FSNode.file [7, 7] 10) ]
    trash := [] }

def exDups : List (Nat × List DupEntry) :=
  [(99, [⟨"/d/a", 2, "2 B"⟩, ⟨"/d/b", 2, "2 B"⟩, ⟨"/d/c", 2, "2 B"⟩])]

example :
    (clean_duplicate_files exEnv exState exDups true).details.map DeleteDetail.path =
      ["/d/a", "/d/c"] := by decide

example : (clean_duplicate_files exEnv exState exDups true).fs.trash =
    ["/d/a", "/d/c"] := by decide

example : (clean_duplicate_files exEnv exState exDups false).details.map DeleteDetail.path =
    ["/d/b", "/d/a"] := by decide

example : (clean_duplicate_files exEnv exState exDups true).total_count = 2 := by decide

example :
    lookupFS (replace_duplicates_with_symlinks exEnv exState exDups true).fs.entries
      "/d/a" = some (FSNode.link "/d/b") := by decide

example :
    lookupFS (replace_duplicates_with_hardlinks exEnv exState exDups true).fs.entries
      "/d/c" = some (FSNode.file [7, 7] 30) := by decide

end CleanerExamples

/-! ### Bucket lemmas -/

section BucketLemmas

variable {κ ν α : Type} [DecidableEq κ]

theorem getBucket_addToBucket (d : List (κ × List ν)) (k : κ) (x : ν) (q : κ) :
    getBucket (addToBucket d k x) q =
      if k = q then getBucket d q ++ [x] else getBucket d q := by
  induction d with
  | nil => by_cases hq : k = q <;> simp [addToBucket, getBucket, hq]
  | cons e rest ih =>
      obtain ⟨k', xs⟩ := e
      by_cases h1 : k' = k
      · subst h1
        by_cases hq : k' = q <;> simp [addToBucket, getBucket, hq]
      · have h1' : ¬ k = k' := fun hc => h1 hc.symm
        by_cases hq : k' = q
        · subst hq
          simp [addToBucket, getBucket, h1, h1']
        · simp [addToBucket, getBucket, h1, hq, ih]

/-- The keys of a bucket list. -/
def bucketKeys (d : List (κ × List ν)) : List κ := d.map Prod.fst

theorem bucketKeys_addToBucket_mem {d : List (κ × List ν)} {k : κ} (x : ν)
    (hmem : k ∈ bucketKeys d) :
    bucketKeys (addToBucket d k x) = bucketKeys d := by
  induction d with
  | nil => simp [bucketKeys] at hmem
  | cons e rest ih =>
      obtain ⟨k', xs⟩ := e
      by_cases h1 : k' = k
      · subst h1
        simp [addToBucket, bucketKeys]
      · have hmem' : k ∈ bucketKeys rest := by
          simp only [bucketKeys, List.map_cons, List.mem_cons] at hmem
          rcases hmem with h | h
          · exact absurd h.symm h1
          · exact h
        simp only [addToBucket, if_neg h1, bucketKeys, List.map_cons]
        rw [show List.map Prod.fst (addToBucket rest k x) = bucketKeys (addToBucket rest k x) from rfl,
          ih hmem']
        rfl

theorem bucketKeys_addToBucket_not_mem {d : List (κ × List ν)} {k : κ} (x : ν)
    (hmem : k ∉ bucketKeys d) :
    bucketKeys (addToBucket d k x) = bucketKeys d ++ [k] := by
  induction d with
  | nil => simp [addToBucket, bucketKeys]
  | cons e rest ih =>
      obtain ⟨k', xs⟩ := e
      have h1 : k' ≠ k := by
        intro hc
        exact hmem (by simp [bucketKeys, hc])
      have hmem' : k ∉ bucketKeys rest := by
        intro hc
        exact hmem (by
          simp only [bucketKeys, List.map_cons, List.mem_cons]
          exact Or.inr hc)
      simp only [addToBucket, if_neg h1, bucketKeys, List.map_cons]
      rw [show List.map Prod.fst (addToBucket rest k x) = bucketKeys (addToBucket rest k x) from rfl,
        ih hmem']
      rfl

theorem nodup_bucketKeys_addToBucket {d : List (κ × List ν)} (k : κ) (x : ν)
    (hd : (bucketKeys d).Nodup) : (bucketKeys (addToBucket d k x)).Nodup := by
  by_cases hmem : k ∈ bucketKeys d
  · rw [bucketKeys_addToBucket_mem x hmem]
    exact hd
  · rw [bucketKeys_addToBucket_not_mem x hmem]
    simpa [List.nodup_append] using ⟨hd, hmem⟩

theorem getBucket_eq_of_mem {d : List (κ × List ν)} {k : κ} {v : List ν}
    (hd : (bucketKeys d).Nodup) (hmem : (k, v) ∈ d) : getBucket d k = v := by
  induction d with
  | nil => simp at hmem
  | cons e rest ih =>
      obtain ⟨k', xs⟩ := e
      simp only [bucketKeys, List.map_cons] at hd
      obtain ⟨hnotin, hd'⟩ := List.nodup_cons.mp hd
      rcases List.mem_cons.mp hmem with he | hr
      · cases he
        simp [getBucket]
      · have hk : k' ≠ k := by
          intro hc
          subst hc
          exact hnotin (by simpa using List.mem_map_of_mem Prod.fst hr)
        simp only [getBucket, if_neg hk]
        exact ih hd' hr

theorem mem_of_mem_bucketKeys {d : List (κ × List ν)} {k : κ}
    (hmem : k ∈ bucketKeys d) : (k, getBucket d k) ∈ d := by
  induction d with
  | nil => simp [bucketKeys] at hmem
  | cons e rest ih =>
      obtain ⟨k', xs⟩ := e
      by_cases hk : k' = k
      · subst hk
        simp [getBucket]
      · have hmem' : k ∈ bucketKeys rest := by
          simp only [bucketKeys, List.map_cons, List.mem_cons] at hmem
          rcases hmem with h | h
          · exact absurd h.symm hk
          · exact h
        simp only [getBucket, if_neg hk]
        exact List.mem_cons.mpr (Or.inr (ih hmem'))

theorem mem_bucketKeys_of_getBucket_ne_nil {d : List (κ × List ν)} {k : κ}
    (h : getBucket d k ≠ []) : k ∈ bucketKeys d := by
  induction d with
  | nil => simp [getBucket] at h
  | cons e rest ih =>
      obtain ⟨k', xs⟩ := e
      by_cases hk : k' = k
      · subst hk; simp [bucketKeys]
      · simp [getBucket, hk] at h
        simp [bucketKeys]
        exact Or.inr (by simpa [bucketKeys] using ih h)

/-- Characterization of the whole bucket-building fold: the bucket of a key
collects, in order, the values of the accepted items carrying that key. -/
theorem getBucket_foldl (P : α → Bool) (key : α → κ) (val : α → ν) :
    ∀ (l : List α) (d : List (κ × List ν)) (q : κ),
      getBucket (l.foldl (fun d f => if P f then addToBucket d (key f) (val f) else d) d) q
        = getBucket d q ++ (l.filter (fun f => P f && decide (key f = q))).map val := by
  intro l
  induction l with
  | nil => intro d q; simp
  | cons f tl ih =>
      intro d q
      simp only [List.foldl_cons]
      by_cases hP : P f
      · by_cases hq : key f = q
        · rw [if_pos hP, ih, getBucket_addToBucket, if_pos hq]
          simp [hP, hq]
        · rw [if_pos hP, ih, getBucket_addToBucket, if_neg hq]
          simp [hP, hq]
      · rw [if_neg hP, ih]
        simp [hP]

theorem nodup_bucketKeys_foldl (P : α → Bool) (key : α → κ) (val : α → ν) :
    ∀ (l : List α) (d : List (κ × List ν)), (bucketKeys d).Nodup →
      (bucketKeys (l.foldl (fun d f => if P f then addToBucket d (key f) (val f) else d) d)).Nodup := by
  intro l
  induction l with
  | nil => intro d hd; simpa using hd
  | cons f tl ih =>
      intro d hd
      by_cases hP : P f
      · simp only [List.foldl_cons, hP, if_true]
        exact ih _ (nodup_bucketKeys_addToBucket _ _ hd)
      · simp only [List.foldl_cons, hP, if_false]
        exact ih _ hd

/-- Discarding the singleton buckets leaves bucket lookups intact for the
keys that survive and empties the rest. -/
theorem getBucket_filter_big {d : List (κ × List ν)} (hd : (bucketKeys d).Nodup)
    (q : κ) :
    getBucket (d.filter (fun kv => 1 < kv.2.length)) q =
      if 1 < (getBucket d q).length then getBucket d q else [] := by
  induction d with
  | nil => simp [getBucket]
  | cons e rest ih =>
      obtain ⟨k', xs⟩ := e
      simp only [bucketKeys, List.map_cons] at hd
      obtain ⟨hnotin, hd'⟩ := List.nodup_cons.mp hd
      by_cases hk : k' = q
      · subst hk
        by_cases hlen : 1 < xs.length
        · simp [List.filter_cons, hlen, getBucket]
        · have hq : getBucket (rest.filter (fun kv => 1 < kv.2.length)) k' = [] := by
            rw [ih hd']
            by_cases hne : getBucket rest k' = []
            · simp [hne]
            · exact absurd (mem_bucketKeys_of_getBucket_ne_nil hne) hnotin
          simp [List.filter_cons, hlen, getBucket, hq]
      · by_cases hlen : 1 < xs.length
        · simp [List.filter_cons, hlen, getBucket, hk, ih hd']
        · simp [List.filter_cons, hlen, getBucket, hk, ih hd']

end BucketLemmas

/-! ### Analyzer characterization -/

/-- The files the detector's walk filter keeps: non-links whose size
reaches min_size. -/
def retainedFiles (walked : List FSFile) (min_size : Nat) : List FSFile :=
  walked.filter (fun f => !f.isLink && decide (min_size ≤ get_file_size f))

/-- The full size dictionary, before singleton buckets are discarded. -/
def sizeDictFull (walked : List FSFile) (min_size : Nat) :
    List (Nat × List FSFile) :=
  walked.foldl
    (fun d f =>
      if f.isLink then d
      else if min_size ≤ get_file_size f then addToBucket d (get_file_size f) f
      else d) []

theorem find_by_size_eq (walked : List FSFile) (min_size : Nat) :
    find_duplicate_files_by_size walked min_size =
      (sizeDictFull walked min_size).filter (fun kv => 1 < kv.2.length) := rfl

theorem sizeDictFull_step_eq (min_size : Nat) :
    (fun (d : List (Nat × List FSFile)) f =>
        if f.isLink then d
        else if min_size ≤ get_file_size f then addToBucket d (get_file_size f) f
        else d)
      = (fun d f =>
        if (!f.isLink && decide (min_size ≤ get_file_size f)) then
          addToBucket d (get_file_size f) f else d) := by
  funext d f
  by_cases h1 : f.isLink <;> by_cases h2 : min_size ≤ get_file_size f <;>
    simp [h1, h2]

theorem getBucket_sizeDictFull (walked : List FSFile) (min_size q : Nat) :
    getBucket (sizeDictFull walked min_size) q =
      (retainedFiles walked min_size).filter (fun f => decide (get_file_size f = q)) := by
  unfold sizeDictFull
  rw [sizeDictFull_step_eq, getBucket_foldl]
  rw [show getBucket ([] : List (Nat × List FSFile)) q = [] from rfl,
    List.nil_append, List.map_id']
  unfold retainedFiles
  rw [List.filter_filter]
  apply List.filter_congr
  intro f _
  by_cases h1 : f.isLink <;> by_cases h2 : min_size ≤ get_file_size f <;>
    by_cases h3 : get_file_size f = q <;> simp [h1, h2, h3]

theorem nodup_keys_sizeDictFull (walked : List FSFile) (min_size : Nat) :
    (bucketKeys (sizeDictFull walked min_size)).Nodup := by
  unfold sizeDictFull
  rw [sizeDictFull_step_eq]
  exact nodup_bucketKeys_foldl _ _ _ walked [] (by simp [bucketKeys])

theorem nodup_keys_find_by_size (walked : List FSFile) (min_size : Nat) :
    (bucketKeys (find_duplicate_files_by_size walked min_size)).Nodup := by
  rw [find_by_size_eq]
  have hsub : List.Sublist
      (bucketKeys ((sizeDictFull walked min_size).filter
        (fun kv => 1 < kv.2.length)))
      (bucketKeys (sizeDictFull walked min_size)) :=
    (List.filter_sublist _).map Prod.fst
  exact hsub.nodup (nodup_keys_sizeDictFull walked min_size)

/-- Each surviving size bucket lists exactly the retained files of its
size, in walk order, and has at least two members. -/
theorem mem_find_by_size {walked : List FSFile} {min_size : Nat}
    {kv : Nat × List FSFile}
    (hmem : kv ∈ find_duplicate_files_by_size walked min_size) :
    kv.2 = (retainedFiles walked min_size).filter
        (fun f => decide (get_file_size f = kv.1)) ∧ 1 < kv.2.length := by
  rw [find_by_size_eq] at hmem
  have h1 := List.of_mem_filter hmem
  have h2 : kv ∈ sizeDictFull walked min_size := List.mem_of_mem_filter hmem
  have h3 : getBucket (sizeDictFull walked min_size) kv.1 = kv.2 := by
    obtain ⟨q, v⟩ := kv
    exact getBucket_eq_of_mem (nodup_keys_sizeDictFull walked min_size) h2
  refine ⟨?_, by simpa using h1⟩
  rw [← h3, getBucket_sizeDictFull]

/-- The size/file pairs the content pass iterates over, in processing
order. -/
def hashJobs (walked : List FSFile) (min_size : Nat) : List (Nat × FSFile) :=
  (find_duplicate_files_by_size walked min_size).flatMap
    (fun kv => kv.2.map (fun f => (kv.1, f)))

/-- The full hash dictionary, before singleton groups are discarded. -/
def hashDictFull (h : List Nat → Nat) (walked : List FSFile) (min_size : Nat) :
    List (Nat × List DupEntry) :=
  (find_duplicate_files_by_size walked min_size).foldl
    (fun d kv =>
      kv.2.foldl (fun d f =>
        match get_file_hash h f with
        | some hv => addToBucket d hv ⟨f.path, kv.1, format_size kv.1⟩
        | none => d) d) []

theorem find_by_content_eq (h : List Nat → Nat) (walked : List FSFile)
    (min_size : Nat) :
    find_duplicate_files_by_content h walked min_size =
      (hashDictFull h walked min_size).filter (fun kv => 1 < kv.2.length) := rfl

theorem foldl_flatMap_eq {α β γ : Type} (g : β → List γ) (step : α → γ → α) :
    ∀ (l : List β) (a : α),
      (l.flatMap g).foldl step a
        = l.foldl (fun acc b => (g b).foldl step acc) a := by
  intro l
  induction l with
  | nil => intro a; simp
  | cons b tl ih =>
      intro a
      simp only [List.flatMap_cons, List.foldl_append, List.foldl_cons]
      exact ih _

theorem hash_step_eq (h : List Nat → Nat) (sz : Nat) :
    (fun (d : List (Nat × List DupEntry)) (f : FSFile) =>
        match get_file_hash h f with
        | some hv => addToBucket d hv ⟨f.path, sz, format_size sz⟩
        | none => d)
      = (fun d f =>
        if f.readOk then addToBucket d (h f.content) ⟨f.path, sz, format_size sz⟩
        else d) := by
  funext d f
  by_cases hr : f.readOk <;> simp [get_file_hash, hr]

theorem hashDictFull_eq_jobs (h : List Nat → Nat) (walked : List FSFile)
    (min_size : Nat) :
    hashDictFull h walked min_size =
      (hashJobs walked min_size).foldl
        (fun d j =>
          if j.2.readOk then
            addToBucket d (h j.2.content) ⟨j.2.path, j.1, format_size j.1⟩
          else d) [] := by
  unfold hashDictFull hashJobs
  rw [foldl_flatMap_eq]
  have hstep : (fun (d : List (Nat × List DupEntry)) (kv : Nat × List FSFile) =>
      kv.2.foldl (fun d f =>
        match get_file_hash h f with
        | some hv => addToBucket d hv ⟨f.path, kv.1, format_size kv.1⟩
        | none => d) d)
    = (fun d kv =>
      (kv.2.map (fun f => (kv.1, f))).foldl
        (fun d j =>
          if j.2.readOk then
            addToBucket d (h j.2.content) ⟨j.2.path, j.1, format_size j.1⟩
          else d) d) := by
    funext d kv
    rw [List.foldl_map, hash_step_eq h kv.1]
  rw [hstep]

theorem getBucket_hashDictFull (h : List Nat → Nat) (walked : List FSFile)
    (min_size hv : Nat) :
    getBucket (hashDictFull h walked min_size) hv =
      ((hashJobs walked min_size).filter
        (fun j => j.2.readOk && decide (h j.2.content = hv))).map
        (fun j => (⟨j.2.path, j.1, format_size j.1⟩ : DupEntry)) := by
  rw [hashDictFull_eq_jobs,
    getBucket_foldl (fun j : Nat × FSFile => j.2.readOk)
      (fun j => h j.2.content)
      (fun j => (⟨j.2.path, j.1, format_size j.1⟩ : DupEntry))]
  rfl

theorem nodup_keys_hashDictFull (h : List Nat → Nat) (walked : List FSFile)
    (min_size : Nat) : (bucketKeys (hashDictFull h walked min_size)).Nodup := by
  rw [hashDictFull_eq_jobs]
  exact nodup_bucketKeys_foldl _ _ _ _ [] (by simp [bucketKeys])

theorem mem_hashJobs {walked : List FSFile} {min_size : Nat} {j : Nat × FSFile}
    (hj : j ∈ hashJobs walked min_size) :
    j.2 ∈ retainedFiles walked min_size ∧ get_file_size j.2 = j.1 ∧
      1 < ((retainedFiles walked min_size).filter
        (fun g => decide (get_file_size g = j.1))).length := by
  unfold hashJobs at hj
  rw [List.mem_flatMap] at hj
  obtain ⟨kv, hkv, hjm⟩ := hj
  rw [List.mem_map] at hjm
  obtain ⟨f, hf, rfl⟩ := hjm
  obtain ⟨hchar, hlen⟩ := mem_find_by_size hkv
  rw [hchar] at hf hlen
  have h1 := List.of_mem_filter hf
  have h2 := List.mem_of_mem_filter hf
  exact ⟨h2, by simpa using h1, by simpa using hlen⟩

/-- Each returned hash group is the bucket of its key in the full hash
dictionary and has at least two members. -/
theorem mem_find_by_content {h : List Nat → Nat} {walked : List FSFile}
    {min_size : Nat} {kv : Nat × List DupEntry}
    (hmem : kv ∈ find_duplicate_files_by_content h walked min_size) :
    kv.2 = getBucket (hashDictFull h walked min_size) kv.1 ∧ 1 < kv.2.length := by
  rw [find_by_content_eq] at hmem
  have h1 := List.of_mem_filter hmem
  have h2 : kv ∈ hashDictFull h walked min_size := List.mem_of_mem_filter hmem
  refine ⟨?_, by simpa using h1⟩
  obtain ⟨q, v⟩ := kv
  exact (getBucket_eq_of_mem (nodup_keys_hashDictFull h walked min_size) h2).symm

/-- The files whose hash is actually consulted for grouping: retained files
whose exact size collides with another retained file. -/
def eligibleFiles (walked : List FSFile) (min_size : Nat) : List FSFile :=
  (retainedFiles walked min_size).filter
    (fun f => 1 < ((retainedFiles walked min_size).filter
      (fun g => decide (get_file_size g = get_file_size f))).length)

theorem filter_disjoint_append_perm {α : Type} (p q : α → Bool)
    (hd : ∀ a, p a = true → q a = false) :
    ∀ l : List α,
      ((l.filter p) ++ (l.filter q)).Perm (l.filter (fun a => p a || q a)) := by
  intro l
  induction l with
  | nil => simp
  | cons a tl ih =>
      by_cases hp : p a
      · have hq : q a = false := hd a hp
        simpa [List.filter_cons, hp, hq] using ih.cons a
      · by_cases hq : q a
        · simp only [List.filter_cons, hp, hq, if_neg, Bool.false_or, if_pos]
          simp only [Bool.not_eq_true] at hp
          simp [hp, hq]
          exact List.perm_middle.trans (ih.cons a)
        · simp only [Bool.not_eq_true] at hp hq
          simpa [List.filter_cons, hp, hq] using ih

theorem flatMap_congr_mem {α β : Type} {l : List α} {g g' : α → List β}
    (h : ∀ a ∈ l, g a = g' a) : l.flatMap g = l.flatMap g' := by
  induction l with
  | nil => rfl
  | cons a tl ih =>
      simp only [List.flatMap_cons, h a (List.mem_cons_self a tl),
        ih (fun x hx => h x (List.mem_cons_of_mem a hx))]

theorem partition_by_keys_perm (l : List FSFile) :
    ∀ keys : List Nat, keys.Nodup →
      (keys.flatMap (fun q => l.filter (fun f => decide (get_file_size f = q)))).Perm
        (l.filter (fun f => decide (get_file_size f ∈ keys))) := by
  intro keys
  induction keys with
  | nil => simp
  | cons q rest ih =>
      intro hnd
      obtain ⟨hq, hnd'⟩ := List.nodup_cons.mp hnd
      simp only [List.flatMap_cons]
      have h1 := ih hnd'
      have h2 := filter_disjoint_append_perm
        (fun f => decide (get_file_size f = q))
        (fun f => decide (get_file_size f ∈ rest))
        (fun f hpf => by
          simp only [decide_eq_true_eq] at hpf
          simp only [decide_eq_false_iff_not]
          rw [hpf]
          exact hq) l
      have h3 : (l.filter (fun f =>
          decide (get_file_size f = q) || decide (get_file_size f ∈ rest)))
          = l.filter (fun f => decide (get_file_size f ∈ q :: rest)) := by
        apply List.filter_congr
        intro f _
        by_cases hfq : get_file_size f = q <;>
          by_cases hfr : get_file_size f ∈ rest <;>
          simp [hfq, hfr, List.mem_cons]
      have h4 := (List.Perm.append_left
        (l.filter (fun f => decide (get_file_size f = q))) h1).trans
        (h3 ▸ h2)
      exact h4

theorem mem_keys_find_by_size {walked : List FSFile} {min_size q : Nat} :
    q ∈ bucketKeys (find_duplicate_files_by_size walked min_size) ↔
      1 < ((retainedFiles walked min_size).filter
        (fun f => decide (get_file_size f = q))).length := by
  constructor
  · intro hq
    have hmem := mem_of_mem_bucketKeys hq
    obtain ⟨hchar, hlen⟩ := mem_find_by_size hmem
    rw [hchar] at hlen
    exact hlen
  · intro hlen
    have hb : getBucket (sizeDictFull walked min_size) q ≠ [] := by
      rw [getBucket_sizeDictFull]
      intro hc
      rw [hc] at hlen
      simp at hlen
    have hk := mem_bucketKeys_of_getBucket_ne_nil hb
    have hm := mem_of_mem_bucketKeys hk
    have hin : (q, getBucket (sizeDictFull walked min_size) q) ∈
        find_duplicate_files_by_size walked min_size := by
      rw [find_by_size_eq]
      refine List.mem_filter.mpr ⟨hm, ?_⟩
      simp only [getBucket_sizeDictFull]
      simpa using hlen
    exact List.mem_map_of_mem Prod.fst hin

/-- The hashing workload is, up to order, exactly the eligible files
paired with their sizes. -/
theorem hashJobs_perm (walked : List FSFile) (min_size : Nat) :
    (hashJobs walked min_size).Perm
      ((eligibleFiles walked min_size).map (fun f => (get_file_size f, f))) := by
  unfold hashJobs
  have e1 : (find_duplicate_files_by_size walked min_size).flatMap
        (fun kv => kv.2.map (fun f => (kv.1, f)))
      = (find_duplicate_files_by_size walked min_size).flatMap
        (fun kv => ((retainedFiles walked min_size).filter
            (fun f => decide (get_file_size f = kv.1))).map
          (fun f => (get_file_size f, f))) := by
    apply flatMap_congr_mem
    intro kv hkv
    obtain ⟨hchar, _⟩ := mem_find_by_size hkv
    rw [← hchar]
    apply List.map_congr_left
    intro f hf
    rw [hchar] at hf
    have := List.of_mem_filter hf
    simp only [decide_eq_true_eq] at this
    rw [this]
  rw [e1]
  have e2 : (find_duplicate_files_by_size walked min_size).flatMap
        (fun kv => ((retainedFiles walked min_size).filter
            (fun f => decide (get_file_size f = kv.1))).map
          (fun f => (get_file_size f, f)))
      = (bucketKeys (find_duplicate_files_by_size walked min_size)).flatMap
        (fun qq => ((retainedFiles walked min_size).filter
            (fun f => decide (get_file_size f = qq))).map
          (fun f => (get_file_size f, f))) := by
    unfold bucketKeys
    rw [List.flatMap_map]
  rw [e2, ← List.map_flatMap]
  have hperm := partition_by_keys_perm (retainedFiles walked min_size)
    (bucketKeys (find_duplicate_files_by_size walked min_size))
    (nodup_keys_find_by_size walked min_size)
  refine (hperm.map _).trans ?_
  have e3 : (retainedFiles walked min_size).filter
        (fun f => decide (get_file_size f ∈
          bucketKeys (find_duplicate_files_by_size walked min_size)))
      = eligibleFiles walked min_size := by
    unfold eligibleFiles
    apply List.filter_congr
    intro f _
    by_cases hmem : get_file_size f ∈
        bucketKeys (find_duplicate_files_by_size walked min_size)
    · simp [hmem, mem_keys_find_by_size.mp hmem]
    · have hnot : ¬ 1 < ((retainedFiles walked min_size).filter
          (fun g => decide (get_file_size g = get_file_size f))).length :=
        fun hcon => hmem (mem_keys_find_by_size.mpr hcon)
      simp [hmem, hnot]
  rw [e3]

/-- Bucket lookup in the full hash dictionary is, up to order, the filter
of the eligible files along readability and hash value. -/
theorem getBucket_hashDictFull_perm (h : List Nat → Nat) (walked : List FSFile)
    (min_size hv : Nat) :
    (getBucket (hashDictFull h walked min_size) hv).Perm
      (((eligibleFiles walked min_size).filter
          (fun f => f.readOk && decide (h f.content = hv))).map
        (fun f =>
          (⟨f.path, get_file_size f, format_size (get_file_size f)⟩ : DupEntry))) := by
  rw [getBucket_hashDictFull]
  have hp := ((hashJobs_perm walked min_size).filter
    (fun j : Nat × FSFile => j.2.readOk && decide (h j.2.content = hv))).map
    (fun j : Nat × FSFile => (⟨j.2.path, j.1, format_size j.1⟩ : DupEntry))
  refine hp.trans ?_
  rw [List.filter_map, List.map_map]
  rfl

theorem getBucket_find_by_content (h : List Nat → Nat) (walked : List FSFile)
    (min_size hv : Nat) :
    getBucket (find_duplicate_files_by_content h walked min_size) hv =
      (if 1 < (getBucket (hashDictFull h walked min_size) hv).length
       then getBucket (hashDictFull h walked min_size) hv else []) := by
  rw [find_by_content_eq]
  exact getBucket_filter_big (nodup_keys_hashDictFull h walked min_size) hv

/-- Every member record of a returned group comes from a retained, readable
file whose hash is the group key. -/
theorem mem_group_entry {h : List Nat → Nat} {walked : List FSFile}
    {min_size : Nat} {kv : Nat × List DupEntry}
    (hkv : kv ∈ find_duplicate_files_by_content h walked min_size)
    {en : DupEntry} (hen : en ∈ kv.2) :
    ∃ f, f ∈ retainedFiles walked min_size ∧ f.readOk = true ∧
      h f.content = kv.1 ∧
      en = ⟨f.path, get_file_size f, format_size (get_file_size f)⟩ := by
  obtain ⟨hchar, _⟩ := mem_find_by_content hkv
  rw [hchar] at hen
  have hperm := getBucket_hashDictFull_perm h walked min_size kv.1
  rw [hperm.mem_iff] at hen
  rw [List.mem_map] at hen
  obtain ⟨f, hf, rfl⟩ := hen
  have h1 := List.of_mem_filter hf
  have h2 : f ∈ eligibleFiles walked min_size := List.mem_of_mem_filter hf
  have h3 : f ∈ retainedFiles walked min_size := List.mem_of_mem_filter h2
  simp only [Bool.and_eq_true, decide_eq_true_eq] at h1
  exact ⟨f, h3, h1.1, h1.2, rfl⟩

theorem mem_retained_walked {walked : List FSFile} {min_size : Nat} {f : FSFile}
    (hf : f ∈ retainedFiles walked min_size) :
    f ∈ walked ∧ f.isLink = false ∧ min_size ≤ get_file_size f := by
  have h1 := List.of_mem_filter hf
  have h2 := List.mem_of_mem_filter hf
  simp only [Bool.and_eq_true, Bool.not_eq_true', decide_eq_true_eq] at h1
  exact ⟨h2, h1.1, h1.2⟩

/-- C1: for every walk and minimum size, each group returned by
find_duplicate_files_by_content has at least two members, every member
carries the group's content hash, and all members share one size in bytes
(content hashes are SHA-256 in the source; the hypothesis states the
collision-freeness idealization actually used: the hash determines the
content's length). -/
theorem claim_C1 (h : List Nat → Nat)
    (hLen : ∀ c₁ c₂ : List Nat, h c₁ = h c₂ → c₁.length = c₂.length)
    (walked : List FSFile) (min_size : Nat) :
    ∀ kv ∈ find_duplicate_files_by_content h walked min_size,
      1 < kv.2.length ∧
      (∀ en ∈ kv.2, ∃ f ∈ walked, f.path = en.path ∧
        get_file_hash h f = some kv.1 ∧ get_file_size f = en.size_bytes) ∧
      (∀ en₁ ∈ kv.2, ∀ en₂ ∈ kv.2, en₁.size_bytes = en₂.size_bytes) := by
  intro kv hkv
  obtain ⟨hchar, hlen⟩ := mem_find_by_content hkv
  refine ⟨hlen, ?_, ?_⟩
  · intro en hen
    obtain ⟨f, hret, hro, hhash, rfl⟩ := mem_group_entry hkv hen
    refine ⟨f, (mem_retained_walked hret).1, rfl, ?_, rfl⟩
    rw [get_file_hash, if_pos hro, hhash]
  · intro en₁ hen₁ en₂ hen₂
    obtain ⟨f₁, _, _, hhash₁, rfl⟩ := mem_group_entry hkv hen₁
    obtain ⟨f₂, _, _, hhash₂, rfl⟩ := mem_group_entry hkv hen₂
    show get_file_size f₁ = get_file_size f₂
    exact hLen f₁.content f₂.content (hhash₁.trans hhash₂.symm)

/-- Witness for C1: the hypothesis holds for the content-length hash, and
the theorem applies to the group the example walk produces. -/
theorem claim_C1_witness :
    1 < ((4, [(⟨"/d/a", 4, "4 B"⟩ : DupEntry), ⟨"/d/b", 4, "4 B"⟩,
        ⟨"/d/c", 4, "4 B"⟩]) : Nat × List DupEntry).2.length ∧
    (∀ en ∈ ((4, [(⟨"/d/a", 4, "4 B"⟩ : DupEntry), ⟨"/d/b", 4, "4 B"⟩,
        ⟨"/d/c", 4, "4 B"⟩]) : Nat × List DupEntry).2,
      ∃ f ∈ exWalk, f.path = en.path ∧
        get_file_hash (fun c => c.length) f
          = some ((4, [(⟨"/d/a", 4, "4 B"⟩ : DupEntry), ⟨"/d/b", 4, "4 B"⟩,
            ⟨"/d/c", 4, "4 B"⟩]) : Nat × List DupEntry).1 ∧
        get_file_size f = en.size_bytes) ∧
    (∀ en₁ ∈ ((4, [(⟨"/d/a", 4, "4 B"⟩ : DupEntry), ⟨"/d/b", 4, "4 B"⟩,
        ⟨"/d/c", 4, "4 B"⟩]) : Nat × List DupEntry).2,
      ∀ en₂ ∈ ((4, [(⟨"/d/a", 4, "4 B"⟩ : DupEntry), ⟨"/d/b", 4, "4 B"⟩,
        ⟨"/d/c", 4, "4 B"⟩]) : Nat × List DupEntry).2,
        en₁.size_bytes = en₂.size_bytes) :=
  claim_C1 (fun c => c.length) (fun _ _ hh => hh) exWalk 3
    (4, [⟨"/d/a", 4, "4 B"⟩, ⟨"/d/b", 4, "4 B"⟩, ⟨"/d/c", 4, "4 B"⟩])
    (by decide)

/-- The hashing workload is exactly the eligible files, up to order. -/
theorem hashedFiles_perm (walked : List FSFile) (min_size : Nat) :
    (hashedFiles walked min_size).Perm (eligibleFiles walked min_size) := by
  have e1 : hashedFiles walked min_size = (hashJobs walked min_size).map Prod.snd := by
    unfold hashedFiles hashJobs
    rw [List.map_flatMap]
    apply flatMap_congr_mem
    intro kv _
    rw [List.map_map]
    exact (List.map_id' kv.2).symm
  rw [e1]
  refine ((hashJobs_perm walked min_size).map Prod.snd).trans ?_
  have e2 : ((eligibleFiles walked min_size).map
        (fun f => (get_file_size f, f))).map Prod.snd
      = eligibleFiles walked min_size := by
    rw [List.map_map]
    exact List.map_id' _
  rw [e2]

/-- C2: the content hash is computed only for retained files whose size
reaches min_size and whose exact byte size is shared with at least one
other retained file; a file below min_size is never hashed and never
appears in a returned group, even when a byte-identical twin above the
threshold exists. -/
theorem claim_C2 (h : List Nat → Nat) (walked : List FSFile) (min_size : Nat)
    (hnd : (walked.map FSFile.path).Nodup) :
    (∀ f ∈ hashedFiles walked min_size,
      min_size ≤ get_file_size f ∧
      1 < ((retainedFiles walked min_size).filter
        (fun g => decide (get_file_size g = get_file_size f))).length) ∧
    (∀ f ∈ walked, get_file_size f < min_size →
      f ∉ hashedFiles walked min_size ∧
      ∀ kv ∈ find_duplicate_files_by_content h walked min_size,
        ∀ en ∈ kv.2, en.path ≠ f.path) := by
  constructor
  · intro f hf
    rw [(hashedFiles_perm walked min_size).mem_iff] at hf
    have h1 := List.of_mem_filter hf
    have h2 : f ∈ retainedFiles walked min_size := List.mem_of_mem_filter hf
    refine ⟨(mem_retained_walked h2).2.2, by simpa using h1⟩
  · intro f hfw hsmall
    constructor
    · intro hf
      rw [(hashedFiles_perm walked min_size).mem_iff] at hf
      have h2 : f ∈ retainedFiles walked min_size := List.mem_of_mem_filter hf
      exact absurd (mem_retained_walked h2).2.2 (Nat.not_le_of_lt hsmall)
    · intro kv hkv en hen hpath
      obtain ⟨g, hret, _, _, rfl⟩ := mem_group_entry hkv hen
      have hgw := (mem_retained_walked hret).1
      have : g = f := List.inj_on_of_nodup_map hnd hgw hfw hpath
      subst this
      exact absurd (mem_retained_walked hret).2.2 (Nat.not_le_of_lt hsmall)

/-- Witness for C2: path-distinctness holds on the example walk, where the
2-byte file below the threshold is indeed neither hashed nor grouped. -/
theorem claim_C2_witness :
    (∀ f ∈ hashedFiles exWalk 3,
      3 ≤ get_file_size f ∧
      1 < ((retainedFiles exWalk 3).filter
        (fun g => decide (get_file_size g = get_file_size f))).length) ∧
    (∀ f ∈ exWalk, get_file_size f < 3 →
      f ∉ hashedFiles exWalk 3 ∧
      ∀ kv ∈ find_duplicate_files_by_content (fun c => c.length) exWalk 3,
        ∀ en ∈ kv.2, en.path ≠ f.path) :=
  claim_C2 (fun c => c.length) exWalk 3 (by decide)

theorem eligibleFiles_perm {walked₁ walked₂ : List FSFile} (min_size : Nat)
    (hperm : walked₁.Perm walked₂) :
    (eligibleFiles walked₁ min_size).Perm (eligibleFiles walked₂ min_size) := by
  have hret : (retainedFiles walked₁ min_size).Perm (retainedFiles walked₂ min_size) :=
    hperm.filter _
  have hpred : (fun f : FSFile => decide (1 < ((retainedFiles walked₁ min_size).filter
        (fun g => decide (get_file_size g = get_file_size f))).length))
      = (fun f => decide (1 < ((retainedFiles walked₂ min_size).filter
        (fun g => decide (get_file_size g = get_file_size f))).length)) := by
    funext f
    rw [(hret.filter (fun g => decide (get_file_size g = get_file_size f))).length_eq]
  unfold eligibleFiles
  rw [hpred]
  exact hret.filter _

/-- C7: the returned grouping depends on the walked files only up to
enumeration order: for every hash value, both runs return a group with the
same membership (in particular, two runs over an unchanged directory yield
the same set of groups). -/
theorem claim_C7 (h : List Nat → Nat) (walked₁ walked₂ : List FSFile)
    (min_size : Nat) (hperm : walked₁.Perm walked₂) :
    ∀ hv, (getBucket (find_duplicate_files_by_content h walked₁ min_size) hv).Perm
      (getBucket (find_duplicate_files_by_content h walked₂ min_size) hv) := by
  intro hv
  have hfull : (getBucket (hashDictFull h walked₁ min_size) hv).Perm
      (getBucket (hashDictFull h walked₂ min_size) hv) := by
    refine (getBucket_hashDictFull_perm h walked₁ min_size hv).trans ?_
    refine List.Perm.trans ?_ (getBucket_hashDictFull_perm h walked₂ min_size hv).symm
    exact ((eligibleFiles_perm min_size hperm).filter _).map _
  rw [getBucket_find_by_content, getBucket_find_by_content, hfull.length_eq]
  by_cases hbig : 1 < (getBucket (hashDictFull h walked₂ min_size) hv).length
  · simpa [hbig] using hfull
  · simp [hbig]

/-- Witness for C7: a transposed walk yields the same group for the shared
hash value. -/
theorem claim_C7_witness :
    (getBucket (find_duplicate_files_by_content (fun c => c.length)
      [ (⟨"/d/a", [120, 120], 1, false, true⟩ : FSFile),
        ⟨"/d/b", [121, 121], 2, false, true⟩ ] 1) 2).Perm
    (getBucket (find_duplicate_files_by_content (fun c => c.length)
      [ (⟨"/d/b", [121, 121], 2, false, true⟩ : FSFile),
        ⟨"/d/a", [120, 120], 1, false, true⟩ ] 1) 2) :=
  claim_C7 (fun c => c.length)
    [⟨"/d/a", [120, 120], 1, false, true⟩, ⟨"/d/b", [121, 121], 2, false, true⟩]
    [⟨"/d/b", [121, 121], 2, false, true⟩, ⟨"/d/a", [120, 120], 1, false, true⟩]
    1 (by decide) 2

/-! ### Sorting and survivor selection -/

theorem filter_orderedInsert_mtime (e : Env) (a : DupEntry) (t : Nat) :
    ∀ l : List DupEntry,
      (List.orderedInsert (mtimeGE e) a l).filter
          (fun f => decide (e.mtimeOf f.path = t))
        = if e.mtimeOf a.path = t
          then a :: l.filter (fun f => decide (e.mtimeOf f.path = t))
          else l.filter (fun f => decide (e.mtimeOf f.path = t)) := by
  intro l
  induction l with
  | nil =>
      by_cases ht : e.mtimeOf a.path = t <;>
        simp [List.orderedInsert, List.filter_cons, ht]
  | cons b tl ih =>
      by_cases hr : mtimeGE e a b
      · rw [List.orderedInsert_of_le _ _ hr]
        by_cases ht : e.mtimeOf a.path = t <;>
          simp [List.filter_cons, ht]
      · have hr' : ¬ e.mtimeOf b.path ≤ e.mtimeOf a.path := hr
        have hgt : e.mtimeOf a.path < e.mtimeOf b.path := Nat.lt_of_not_le hr'
        simp only [List.orderedInsert, if_neg hr]
        by_cases ht : e.mtimeOf a.path = t
        · have hbt : ¬ e.mtimeOf b.path = t := by omega
          simp [List.filter_cons, hbt, ih, ht]
        · by_cases hbt : e.mtimeOf b.path = t <;>
            simp [List.filter_cons, hbt, ih, ht]

/-- Stability of the sort: members with any given modification time appear
in the sorted list in their original enumeration order. -/
theorem filter_sortDesc_mtime (e : Env) (files : List DupEntry) (t : Nat) :
    (sortDesc e files).filter (fun f => decide (e.mtimeOf f.path = t))
      = files.filter (fun f => decide (e.mtimeOf f.path = t)) := by
  induction files with
  | nil => rfl
  | cons a tl ih =>
      unfold sortDesc at ih ⊢
      simp only [List.insertionSort]
      rw [filter_orderedInsert_mtime]
      by_cases ht : e.mtimeOf a.path = t
      · rw [if_pos ht, ih, List.filter_cons]
        simp [ht]
      · rw [if_neg ht, ih, List.filter_cons]
        simp [ht]

theorem sorted_rel_last_append {α : Type} {r : α → α → Prop} [IsRefl α r]
    {init : List α} {v : α} (hs : List.Sorted r (init ++ [v])) :
    ∀ x ∈ init ++ [v], r x v := by
  intro x hx
  rcases List.mem_append.mp hx with hx1 | hx2
  · exact (List.pairwise_append.mp hs).2.2 x hx1 v (List.mem_singleton_self v)
  · have : x = v := by simpa using hx2
    subst this
    exact refl_of r x

/-- C3: each group is sorted by modification time (newest first, stably:
equal modification times keep the enumeration order), and the survivor —
the member every strategy keeps — is the newest member under keep_newest
and the oldest otherwise, with ties resolved by the stable order, so the
choice is deterministic. -/
theorem claim_C3 (e : Env) (files : List DupEntry) (keep_newest : Bool)
    (hne : files ≠ []) :
    (sortDesc e files).Perm files ∧
    List.Sorted (mtimeGE e) (sortDesc e files) ∧
    (∀ t, (sortDesc e files).filter (fun f => decide (e.mtimeOf f.path = t))
        = files.filter (fun f => decide (e.mtimeOf f.path = t))) ∧
    ∃ v, survivorEntry e keep_newest files = some v ∧ v ∈ files ∧
      (keep_newest = true →
        (∀ m ∈ files, e.mtimeOf m.path ≤ e.mtimeOf v.path) ∧
        v :: files_to_remove e keep_newest files = sortDesc e files ∧
        (files.filter (fun m =>
          decide (e.mtimeOf m.path = e.mtimeOf v.path))).head? = some v) ∧
      (keep_newest = false →
        (∀ m ∈ files, e.mtimeOf v.path ≤ e.mtimeOf m.path) ∧
        files_to_remove e keep_newest files ++ [v] = sortDesc e files ∧
        (files.filter (fun m =>
          decide (e.mtimeOf m.path = e.mtimeOf v.path))).getLast? = some v) := by
  have hperm : (sortDesc e files).Perm files := List.perm_insertionSort _ files
  have hsorted : List.Sorted (mtimeGE e) (sortDesc e files) :=
    List.sorted_insertionSort _ files
  have hsne : sortDesc e files ≠ [] := by
    intro hc
    have hlen := hperm.length_eq
    rw [hc] at hlen
    exact hne (List.eq_nil_of_length_eq_zero hlen.symm)
  refine ⟨hperm, hsorted, fun t => filter_sortDesc_mtime e files t, ?_⟩
  cases keep_newest with
  | true =>
      obtain ⟨v, tl, hvt⟩ : ∃ v tl, sortDesc e files = v :: tl := by
        cases hsc : sortDesc e files with
        | nil => exact absurd hsc hsne
        | cons v tl => exact ⟨v, tl, rfl⟩
      have hvmem : v ∈ files := hperm.mem_iff.mp (by rw [hvt]; exact List.mem_cons_self v tl)
      refine ⟨v, ?_, hvmem, ?_, fun hc => Bool.noConfusion hc⟩
      · simp only [survivorEntry, if_pos]
        rw [hvt]
        rfl
      · intro _
        have hsorted' : List.Sorted (mtimeGE e) (v :: tl) := by
          rw [← hvt]
          exact hsorted
        refine ⟨?_, ?_, ?_⟩
        · intro m hm
          have hm' : m ∈ v :: tl := by
            rw [← hvt]
            exact hperm.mem_iff.mpr hm
          rcases List.mem_cons.mp hm' with rfl | htl
          · exact Nat.le_refl _
          · exact List.rel_of_sorted_cons hsorted' m htl
        · show v :: (sortDesc e files).tail = sortDesc e files
          rw [hvt]
          rfl
        · rw [← filter_sortDesc_mtime e files (e.mtimeOf v.path), hvt,
            List.filter_cons]
          simp
  | false =>
      obtain ⟨init, v, hvt⟩ : ∃ init v, sortDesc e files = init ++ [v] := by
        cases hsc : sortDesc e files with
        | nil => exact absurd hsc hsne
        | cons a tla =>
            exact ⟨(a :: tla).dropLast, (a :: tla).getLast (by simp),
              (List.dropLast_append_getLast (l := a :: tla) (by simp)).symm⟩
      have hvs : v ∈ sortDesc e files := by
        rw [hvt]
        exact List.mem_append.mpr (Or.inr (List.mem_singleton_self v))
      have hvmem : v ∈ files := hperm.mem_iff.mp hvs
      have hsorted2 : List.Sorted (mtimeGE e) (init ++ [v]) := by
        rw [← hvt]
        exact hsorted
      refine ⟨v, ?_, hvmem, fun hc => Bool.noConfusion hc, ?_⟩
      · simp only [survivorEntry, Bool.false_eq_true, if_false]
        rw [hvt, List.getLast?_concat]
      · intro _
        refine ⟨?_, ?_, ?_⟩
        · intro m hm
          have hm' : m ∈ init ++ [v] := by
            rw [← hvt]
            exact hperm.mem_iff.mpr hm
          exact sorted_rel_last_append hsorted2 m hm'
        · show (sortDesc e files).dropLast ++ [v] = sortDesc e files
          rw [hvt, List.dropLast_concat]
        · rw [← filter_sortDesc_mtime e files (e.mtimeOf v.path), hvt,
            List.filter_append]
          simp [List.getLast?_concat]

/-- Witness for C3 on a nonempty three-member group. -/
theorem claim_C3_witness :
    (sortDesc exEnv (exDups.head (by decide)).2).Perm (exDups.head (by decide)).2 ∧
    List.Sorted (mtimeGE exEnv) (sortDesc exEnv (exDups.head (by decide)).2) ∧
    (∀ t, (sortDesc exEnv (exDups.head (by decide)).2).filter
        (fun f => decide (exEnv.mtimeOf f.path = t))
      = (exDups.head (by decide)).2.filter
        (fun f => decide (exEnv.mtimeOf f.path = t))) ∧
    ∃ v, survivorEntry exEnv true (exDups.head (by decide)).2 = some v ∧
      v ∈ (exDups.head (by decide)).2 ∧
      (true = true →
        (∀ m ∈ (exDups.head (by decide)).2,
          exEnv.mtimeOf m.path ≤ exEnv.mtimeOf v.path) ∧
        v :: files_to_remove exEnv true (exDups.head (by decide)).2
          = sortDesc exEnv (exDups.head (by decide)).2 ∧
        ((exDups.head (by decide)).2.filter (fun m =>
          decide (exEnv.mtimeOf m.path = exEnv.mtimeOf v.path))).head? = some v) ∧
      (true = false →
        (∀ m ∈ (exDups.head (by decide)).2,
          exEnv.mtimeOf v.path ≤ exEnv.mtimeOf m.path) ∧
        files_to_remove exEnv true (exDups.head (by decide)).2 ++ [v]
          = sortDesc exEnv (exDups.head (by decide)).2 ∧
        ((exDups.head (by decide)).2.filter (fun m =>
          decide (exEnv.mtimeOf m.path = exEnv.mtimeOf v.path))).getLast?
          = some v) :=
  claim_C3 exEnv (exDups.head (by decide)).2 true (by decide)

/-! ### Cleaner run invariants -/

theorem foldl_inv {α β : Type} {P : α → Prop} {step : α → β → α}
    (hstep : ∀ a b, P a → P (step a b)) :
    ∀ (l : List β) (a : α), P a → P (l.foldl step a) := by
  intro l
  induction l with
  | nil => intro a h; exact h
  | cons b tl ih => intro a h; exact ih _ (hstep a b h)

theorem processDeleteMember_details (e : Env) (acc : RunAcc DeleteDetail)
    (f : DupEntry) :
    ∃ d : DeleteDetail, (processDeleteMember e acc f).details = acc.details ++ [d] ∧
      d.path = f.path ∧ d.size_bytes = f.size_bytes := by
  unfold processDeleteMember
  cases hts : send2trash e acc.fs f.path with
  | some s' => exact ⟨_, rfl, rfl, rfl⟩
  | none =>
      cases hrm : os_remove e acc.fs f.path with
      | some s' => exact ⟨_, rfl, rfl, rfl⟩
      | none => exact ⟨_, rfl, rfl, rfl⟩

theorem processHardlinkMember_details (e : Env) (src : String)
    (acc : RunAcc LinkDetail) (f : DupEntry) :
    ∃ d : LinkDetail, (processHardlinkMember e src acc f).details = acc.details ++ [d] ∧
      d.source = src ∧ d.target = f.path ∧ d.size_bytes = f.size_bytes := by
  unfold processHardlinkMember
  cases hrm : os_remove e acc.fs f.path with
  | some s' =>
      dsimp only
      cases hlk : os_link e s' src f.path with
      | some s'' => exact ⟨_, rfl, rfl, rfl, rfl⟩
      | none => exact ⟨_, rfl, rfl, rfl, rfl⟩
  | none => exact ⟨_, rfl, rfl, rfl, rfl⟩

theorem processSymlinkMember_details (e : Env) (src : String)
    (acc : RunAcc LinkDetail) (f : DupEntry) :
    ∃ d : LinkDetail, (processSymlinkMember e src acc f).details = acc.details ++ [d] ∧
      d.source = src ∧ d.target = f.path ∧ d.size_bytes = f.size_bytes := by
  unfold processSymlinkMember
  cases hrm : os_remove e acc.fs f.path with
  | some s' =>
      dsimp only
      cases hlk : os_symlink e s' (e.abspath src) f.path with
      | some s'' => exact ⟨_, rfl, rfl, rfl, rfl⟩
      | none => exact ⟨_, rfl, rfl, rfl, rfl⟩
  | none => exact ⟨_, rfl, rfl, rfl, rfl⟩

/-- Aggregate invariant of a delete run: the counters count and sum
exactly the successful details, and the callback fired exactly on the
successful details' paths, in order. -/
def DeleteInv (acc : RunAcc DeleteDetail) : Prop :=
  acc.total_count = (acc.details.filter (fun d => d.success)).length ∧
  acc.total_size_bytes
    = ((acc.details.filter (fun d => d.success)).map (fun d => d.size_bytes)).sum ∧
  acc.calls = (acc.details.filter (fun d => d.success)).map (fun d => d.path)

/-- Aggregate invariant of a link run (hard links or symlinks). -/
def LinkInv (acc : RunAcc LinkDetail) : Prop :=
  acc.total_count = (acc.details.filter (fun d => d.success)).length ∧
  acc.total_size_bytes
    = ((acc.details.filter (fun d => d.success)).map (fun d => d.size_bytes)).sum ∧
  acc.calls = (acc.details.filter (fun d => d.success)).map (fun d => d.target)

theorem processDeleteMember_inv {e : Env} {acc : RunAcc DeleteDetail}
    {f : DupEntry} (h : DeleteInv acc) : DeleteInv (processDeleteMember e acc f) := by
  obtain ⟨h1, h2, h3⟩ := h
  unfold DeleteInv processDeleteMember
  cases hts : send2trash e acc.fs f.path with
  | some s' => simp [List.filter_append, h1, h2, h3]
  | none =>
      cases hrm : os_remove e acc.fs f.path with
      | some s' => simp [List.filter_append, h1, h2, h3]
      | none => simp [List.filter_append, h1, h2, h3]

theorem processHardlinkMember_inv {e : Env} {src : String} {acc : RunAcc LinkDetail}
    {f : DupEntry} (h : LinkInv acc) : LinkInv (processHardlinkMember e src acc f) := by
  obtain ⟨h1, h2, h3⟩ := h
  unfold LinkInv processHardlinkMember
  cases hrm : os_remove e acc.fs f.path with
  | some s' =>
      dsimp only
      cases hlk : os_link e s' src f.path with
      | some s'' => simp [List.filter_append, h1, h2, h3]
      | none => simp [List.filter_append, h1, h2, h3]
  | none => simp [List.filter_append, h1, h2, h3]

theorem processSymlinkMember_inv {e : Env} {src : String} {acc : RunAcc LinkDetail}
    {f : DupEntry} (h : LinkInv acc) : LinkInv (processSymlinkMember e src acc f) := by
  obtain ⟨h1, h2, h3⟩ := h
  unfold LinkInv processSymlinkMember
  cases hrm : os_remove e acc.fs f.path with
  | some s' =>
      dsimp only
      cases hlk : os_symlink e s' (e.abspath src) f.path with
      | some s'' => simp [List.filter_append, h1, h2, h3]
      | none => simp [List.filter_append, h1, h2, h3]
  | none => simp [List.filter_append, h1, h2, h3]

theorem clean_duplicate_files_inv (e : Env) (s : FSState)
    (duplicates : List (Nat × List DupEntry)) (keep_newest : Bool) :
    DeleteInv (clean_duplicate_files e s duplicates keep_newest) := by
  unfold clean_duplicate_files
  refine foldl_inv ?_ duplicates _ ?_
  · intro acc kv hacc
    exact foldl_inv (fun a b hb => processDeleteMember_inv hb) _ acc hacc
  · exact ⟨rfl, rfl, rfl⟩

theorem replace_hardlinks_inv (e : Env) (s : FSState)
    (duplicates : List (Nat × List DupEntry)) (keep_newest : Bool) :
    LinkInv (replace_duplicates_with_hardlinks e s duplicates keep_newest) := by
  unfold replace_duplicates_with_hardlinks
  refine foldl_inv ?_ duplicates _ ⟨rfl, rfl, rfl⟩
  intro acc kv hacc
  unfold cleanGroupHardlink
  cases source_file e keep_newest kv.2 with
  | some src => exact foldl_inv (fun a b hb => processHardlinkMember_inv hb) _ acc hacc
  | none => exact hacc

theorem source_file_none {e : Env} {keep_newest : Bool} {files : List DupEntry}
    (h : source_file e keep_newest files = none) :
    files_to_remove e keep_newest files = [] := by
  unfold source_file survivorEntry at h
  rw [Option.map_eq_none'] at h
  unfold files_to_remove
  cases keep_newest with
  | true =>
      simp only [if_pos] at h ⊢
      rw [List.head?_eq_none_iff.mp h]
      rfl
  | false =>
      simp only [Bool.false_eq_true, if_false] at h ⊢
      rw [List.getLast?_eq_none_iff.mp h]
      rfl

theorem foldl_processDelete_paths (e : Env) :
    ∀ (members : List DupEntry) (acc : RunAcc DeleteDetail),
      ((members.foldl (processDeleteMember e) acc).details).map (fun d => d.path)
        = (acc.details).map (fun d => d.path) ++ members.map (fun f => f.path) := by
  intro members
  induction members with
  | nil => intro acc; simp
  | cons f tl ih =>
      intro acc
      rw [List.foldl_cons, ih]
      obtain ⟨d, hd, hp, _⟩ := processDeleteMember_details e acc f
      rw [hd]
      simp [hp]

theorem foldl_processHardlink_targets (e : Env) (src : String) :
    ∀ (members : List DupEntry) (acc : RunAcc LinkDetail),
      ((members.foldl (processHardlinkMember e src) acc).details).map (fun d => d.target)
        = (acc.details).map (fun d => d.target) ++ members.map (fun f => f.path) := by
  intro members
  induction members with
  | nil => intro acc; simp
  | cons f tl ih =>
      intro acc
      rw [List.foldl_cons, ih]
      obtain ⟨d, hd, _, ht, _⟩ := processHardlinkMember_details e src acc f
      rw [hd]
      simp [ht]

theorem foldl_processSymlink_targets (e : Env) (src : String) :
    ∀ (members : List DupEntry) (acc : RunAcc LinkDetail),
      ((members.foldl (processSymlinkMember e src) acc).details).map (fun d => d.target)
        = (acc.details).map (fun d => d.target) ++ members.map (fun f => f.path) := by
  intro members
  induction members with
  | nil => intro acc; simp
  | cons f tl ih =>
      intro acc
      rw [List.foldl_cons, ih]
      obtain ⟨d, hd, _, ht, _⟩ := processSymlinkMember_details e src acc f
      rw [hd]
      simp [ht]

theorem clean_delete_paths (e : Env) (s : FSState)
    (dups : List (Nat × List DupEntry)) (kn : Bool) :
    (clean_duplicate_files e s dups kn).details.map (fun d => d.path)
      = (dups.flatMap (fun kv => files_to_remove e kn kv.2)).map
        (fun f => f.path) := by
  unfold clean_duplicate_files
  have hgen : ∀ (ds : List (Nat × List DupEntry)) (acc : RunAcc DeleteDetail),
      ((ds.foldl (fun acc kv =>
          (files_to_remove e kn kv.2).foldl (processDeleteMember e) acc)
        acc).details).map (fun d => d.path)
      = acc.details.map (fun d => d.path)
        ++ (ds.flatMap (fun kv => files_to_remove e kn kv.2)).map
          (fun f => f.path) := by
    intro ds
    induction ds with
    | nil => intro acc; simp
    | cons kv tl ih =>
        intro acc
        rw [List.foldl_cons, ih, foldl_processDelete_paths]
        simp [List.flatMap_cons]
  rw [hgen]
  rfl

theorem hardlink_targets (e : Env) (s : FSState)
    (dups : List (Nat × List DupEntry)) (kn : Bool) :
    (replace_duplicates_with_hardlinks e s dups kn).details.map (fun d => d.target)
      = (dups.flatMap (fun kv => files_to_remove e kn kv.2)).map
        (fun f => f.path) := by
  unfold replace_duplicates_with_hardlinks
  have hgroup : ∀ (acc : RunAcc LinkDetail) (files : List DupEntry),
      ((cleanGroupHardlink e kn acc files).details).map (fun d => d.target)
        = acc.details.map (fun d => d.target)
          ++ (files_to_remove e kn files).map (fun f => f.path) := by
    intro acc files
    unfold cleanGroupHardlink
    cases hsf : source_file e kn files with
    | some src => exact foldl_processHardlink_targets e src _ acc
    | none => rw [source_file_none hsf]; simp
  have hgen : ∀ (ds : List (Nat × List DupEntry)) (acc : RunAcc LinkDetail),
      ((ds.foldl (fun acc kv => cleanGroupHardlink e kn acc kv.2) acc).details).map
        (fun d => d.target)
      = acc.details.map (fun d => d.target)
        ++ (ds.flatMap (fun kv => files_to_remove e kn kv.2)).map
          (fun f => f.path) := by
    intro ds
    induction ds with
    | nil => intro acc; simp
    | cons kv tl ih =>
        intro acc
        rw [List.foldl_cons, ih, hgroup]
        simp [List.flatMap_cons]
  rw [hgen]
  rfl

theorem symlink_targets (e : Env) (s : FSState)
    (dups : List (Nat × List DupEntry)) (kn : Bool) :
    (replace_duplicates_with_symlinks e s dups kn).details.map (fun d => d.target)
      = (dups.flatMap (fun kv => files_to_remove e kn kv.2)).map
        (fun f => f.path) := by
  unfold replace_duplicates_with_symlinks
  have hgroup : ∀ (acc : RunAcc LinkDetail) (files : List DupEntry),
      ((cleanGroupSymlink e kn acc files).details).map (fun d => d.target)
        = acc.details.map (fun d => d.target)
          ++ (files_to_remove e kn files).map (fun f => f.path) := by
    intro acc files
    unfold cleanGroupSymlink
    cases hsf : source_file e kn files with
    | some src => exact foldl_processSymlink_targets e src _ acc
    | none => rw [source_file_none hsf]; simp
  have hgen : ∀ (ds : List (Nat × List DupEntry)) (acc : RunAcc LinkDetail),
      ((ds.foldl (fun acc kv => cleanGroupSymlink e kn acc kv.2) acc).details).map
        (fun d => d.target)
      = acc.details.map (fun d => d.target)
        ++ (ds.flatMap (fun kv => files_to_remove e kn kv.2)).map
          (fun f => f.path) := by
    intro ds
    induction ds with
    | nil => intro acc; simp
    | cons kv tl ih =>
        intro acc
        rw [List.foldl_cons, ih, hgroup]
        simp [List.flatMap_cons]
  rw [hgen]
  rfl

theorem replace_symlinks_inv (e : Env) (s : FSState)
    (duplicates : List (Nat × List DupEntry)) (keep_newest : Bool) :
    LinkInv (replace_duplicates_with_symlinks e s duplicates keep_newest) := by
  unfold replace_duplicates_with_symlinks
  refine foldl_inv ?_ duplicates _ ⟨rfl, rfl, rfl⟩
  intro acc kv hacc
  unfold cleanGroupSymlink
  cases source_file e keep_newest kv.2 with
  | some src => exact foldl_inv (fun a b hb => processSymlinkMember_inv hb) _ acc hacc
  | none => exact hacc

/-! ### Claims about the consolidation results -/

/-- C10: in the result of every consolidation function, total_count equals
the number of successful detail records and total_size_bytes the sum of
their sizes; failed members contribute a record but nothing to either
aggregate.  Groups are required nonempty, as they are in every detection
output (on an empty group the source's files_sorted[0] would raise). -/
theorem claim_C10 (e : Env) (s : FSState) (dups : List (Nat × List DupEntry))
    (kn : Bool) (_hne : ∀ kv ∈ dups, kv.2 ≠ []) :
    ((clean_duplicate_files e s dups kn).total_count
        = ((clean_duplicate_files e s dups kn).details.filter
          (fun d => d.success)).length ∧
      (clean_duplicate_files e s dups kn).total_size_bytes
        = (((clean_duplicate_files e s dups kn).details.filter
            (fun d => d.success)).map (fun d => d.size_bytes)).sum) ∧
    ((replace_duplicates_with_hardlinks e s dups kn).total_count
        = ((replace_duplicates_with_hardlinks e s dups kn).details.filter
          (fun d => d.success)).length ∧
      (replace_duplicates_with_hardlinks e s dups kn).total_size_bytes
        = (((replace_duplicates_with_hardlinks e s dups kn).details.filter
            (fun d => d.success)).map (fun d => d.size_bytes)).sum) ∧
    ((replace_duplicates_with_symlinks e s dups kn).total_count
        = ((replace_duplicates_with_symlinks e s dups kn).details.filter
          (fun d => d.success)).length ∧
      (replace_duplicates_with_symlinks e s dups kn).total_size_bytes
        = (((replace_duplicates_with_symlinks e s dups kn).details.filter
            (fun d => d.success)).map (fun d => d.size_bytes)).sum) := by
  obtain ⟨d1, d2, _⟩ := clean_duplicate_files_inv e s dups kn
  obtain ⟨h1, h2, _⟩ := replace_hardlinks_inv e s dups kn
  obtain ⟨s1, s2, _⟩ := replace_symlinks_inv e s dups kn
  exact ⟨⟨d1, d2⟩, ⟨h1, h2⟩, ⟨s1, s2⟩⟩

/-- Witness for C10 on the example run, where every member succeeds. -/
theorem claim_C10_witness :
    ((clean_duplicate_files exEnv exState exDups true).total_count
        = ((clean_duplicate_files exEnv exState exDups true).details.filter
          (fun d => d.success)).length ∧
      (clean_duplicate_files exEnv exState exDups true).total_size_bytes
        = (((clean_duplicate_files exEnv exState exDups true).details.filter
            (fun d => d.success)).map (fun d => d.size_bytes)).sum) ∧
    ((replace_duplicates_with_hardlinks exEnv exState exDups true).total_count
        = ((replace_duplicates_with_hardlinks exEnv exState exDups true).details.filter
          (fun d => d.success)).length ∧
      (replace_duplicates_with_hardlinks exEnv exState exDups true).total_size_bytes
        = (((replace_duplicates_with_hardlinks exEnv exState exDups true).details.filter
            (fun d => d.success)).map (fun d => d.size_bytes)).sum) ∧
    ((replace_duplicates_with_symlinks exEnv exState exDups true).total_count
        = ((replace_duplicates_with_symlinks exEnv exState exDups true).details.filter
          (fun d => d.success)).length ∧
      (replace_duplicates_with_symlinks exEnv exState exDups true).total_size_bytes
        = (((replace_duplicates_with_symlinks exEnv exState exDups true).details.filter
            (fun d => d.success)).map (fun d => d.size_bytes)).sum) :=
  claim_C10 exEnv exState exDups true (by decide)

/-- C6: every consolidation run appends exactly one detail record per
non-survivor member, for every member of every group, in processing order
— so no member failure aborts the group or the run, and nothing escapes to
the caller; failed members are recorded individually like successful ones.
Groups are required nonempty, as in every detection output. -/
theorem claim_C6 (e : Env) (s : FSState) (dups : List (Nat × List DupEntry))
    (kn : Bool) (_hne : ∀ kv ∈ dups, kv.2 ≠ []) :
    (clean_duplicate_files e s dups kn).details.map (fun d => d.path)
      = (dups.flatMap (fun kv => files_to_remove e kn kv.2)).map
        (fun f => f.path) ∧
    (replace_duplicates_with_hardlinks e s dups kn).details.map
        (fun d => d.target)
      = (dups.flatMap (fun kv => files_to_remove e kn kv.2)).map
        (fun f => f.path) ∧
    (replace_duplicates_with_symlinks e s dups kn).details.map
        (fun d => d.target)
      = (dups.flatMap (fun kv => files_to_remove e kn kv.2)).map
        (fun f => f.path) :=
  ⟨clean_delete_paths e s dups kn, hardlink_targets e s dups kn,
    symlink_targets e s dups kn⟩

/-- Environment of the failing concrete checks: every trash, removal and
link operation is denied. -/
def failEnv : Env :=
  { mtimeOf := fun p => if p = "/d/a" then 20 else 10
    trashOk := fun _ => false
    removeOk := fun _ => false
    linkOk := fun _ => false
    abspath := fun p => p }

/-- Witness for C6: a run in which every member fails still records one
detail per member of every group. -/
theorem claim_C6_witness :
    (clean_duplicate_files failEnv exState exDups true).details.map
        (fun d => d.path)
      = (exDups.flatMap (fun kv => files_to_remove failEnv true kv.2)).map
        (fun f => f.path) ∧
    (replace_duplicates_with_hardlinks failEnv exState exDups true).details.map
        (fun d => d.target)
      = (exDups.flatMap (fun kv => files_to_remove failEnv true kv.2)).map
        (fun f => f.path) ∧
    (replace_duplicates_with_symlinks failEnv exState exDups true).details.map
        (fun d => d.target)
      = (exDups.flatMap (fun kv => files_to_remove failEnv true kv.2)).map
        (fun f => f.path) :=
  claim_C6 failEnv exState exDups true (by decide)

/-- Counterexample to C4: in a run whose two processed members both fail,
both members get detail records but the progress callback is never
invoked, contradicting the claim that it fires once per processed member
regardless of success or failure. -/
theorem claim_C4_counterexample :
    (clean_duplicate_files failEnv exState exDups true).details.map
        (fun d => d.path) = ["/d/b", "/d/c"] ∧
    (clean_duplicate_files failEnv exState exDups true).calls = [] := by
  exact ⟨by decide, by decide⟩

/-- C4 as amended: in every consolidation run the progress callback is
invoked exactly once per successfully processed member, with that member's
path, in processing order; members whose processing fails do not trigger
it.  The callback's result is ignored, so invoking it does not change the
result. -/
theorem claim_C4_amended (e : Env) (s : FSState)
    (dups : List (Nat × List DupEntry)) (kn : Bool)
    (_hne : ∀ kv ∈ dups, kv.2 ≠ []) :
    (clean_duplicate_files e s dups kn).calls
      = ((clean_duplicate_files e s dups kn).details.filter
          (fun d => d.success)).map (fun d => d.path) ∧
    (replace_duplicates_with_hardlinks e s dups kn).calls
      = ((replace_duplicates_with_hardlinks e s dups kn).details.filter
          (fun d => d.success)).map (fun d => d.target) ∧
    (replace_duplicates_with_symlinks e s dups kn).calls
      = ((replace_duplicates_with_symlinks e s dups kn).details.filter
          (fun d => d.success)).map (fun d => d.target) :=
  ⟨(clean_duplicate_files_inv e s dups kn).2.2,
    (replace_hardlinks_inv e s dups kn).2.2,
    (replace_symlinks_inv e s dups kn).2.2⟩

/-- Witness for the amended C4 on the all-success example run. -/
theorem claim_C4_amended_witness :
    (clean_duplicate_files exEnv exState exDups true).calls
      = ((clean_duplicate_files exEnv exState exDups true).details.filter
          (fun d => d.success)).map (fun d => d.path) ∧
    (replace_duplicates_with_hardlinks exEnv exState exDups true).calls
      = ((replace_duplicates_with_hardlinks exEnv exState exDups true).details.filter
          (fun d => d.success)).map (fun d => d.target) ∧
    (replace_duplicates_with_symlinks exEnv exState exDups true).calls
      = ((replace_duplicates_with_symlinks exEnv exState exDups true).details.filter
          (fun d => d.success)).map (fun d => d.target) :=
  claim_C4_amended exEnv exState exDups true (by decide)

/-- C5: processing one member under the delete strategy: the member is
first sent to the recoverable trash; exactly when that fails, permanent
deletion is attempted; the appended record is successful precisely when
either step succeeds, and carries an error message only when both fail, in
which case the filesystem is untouched. -/
theorem claim_C5 (e : Env) (acc : RunAcc DeleteDetail) (f : DupEntry) :
    ∃ d : DeleteDetail,
      (processDeleteMember e acc f).details = acc.details ++ [d] ∧
      d.path = f.path ∧ d.size_bytes = f.size_bytes ∧
      d.success = ((send2trash e acc.fs f.path).isSome
        || (os_remove e acc.fs f.path).isSome) ∧
      (∀ s', send2trash e acc.fs f.path = some s' →
        (processDeleteMember e acc f).fs = s' ∧
        s'.trash = acc.fs.trash ++ [f.path] ∧
        s'.entries = eraseFS acc.fs.entries f.path ∧
        d.error = none) ∧
      (send2trash e acc.fs f.path = none →
        (∀ s', os_remove e acc.fs f.path = some s' →
          (processDeleteMember e acc f).fs = s' ∧
          s'.trash = acc.fs.trash ∧
          s'.entries = eraseFS acc.fs.entries f.path ∧
          d.error = none) ∧
        (os_remove e acc.fs f.path = none →
          (processDeleteMember e acc f).fs = acc.fs ∧
          d.success = false ∧ d.error.isSome = true)) := by
  unfold processDeleteMember
  cases hts : send2trash e acc.fs f.path with
  | some s' =>
      have htrash : s'.trash = acc.fs.trash ++ [f.path] ∧
          s'.entries = eraseFS acc.fs.entries f.path := by
        unfold send2trash at hts
        by_cases hc : (lookupFS acc.fs.entries f.path).isSome && e.trashOk f.path
        · rw [if_pos hc] at hts
          cases Option.some_inj.mp hts
          exact ⟨rfl, rfl⟩
        · rw [if_neg hc] at hts
          cases hts
      refine ⟨_, rfl, rfl, rfl, by simp, ?_, ?_⟩
      · intro s'' hs
        obtain rfl := Option.some_inj.mp hs
        exact ⟨rfl, htrash.1, htrash.2, rfl⟩
      · intro hn
        exact Option.noConfusion hn
  | none =>
      dsimp only
      cases hrm : os_remove e acc.fs f.path with
      | some s' =>
          have hrem : s'.trash = acc.fs.trash ∧
              s'.entries = eraseFS acc.fs.entries f.path := by
            unfold os_remove at hrm
            by_cases hc : (lookupFS acc.fs.entries f.path).isSome && e.removeOk f.path
            · rw [if_pos hc] at hrm
              cases Option.some_inj.mp hrm
              exact ⟨rfl, rfl⟩
            · rw [if_neg hc] at hrm
              cases hrm
          refine ⟨_, rfl, rfl, rfl, by simp, ?_, ?_⟩
          · intro s'' hs
            exact Option.noConfusion hs
          · intro _
            refine ⟨?_, ?_⟩
            · intro s'' hs
              obtain rfl := Option.some_inj.mp hs
              exact ⟨rfl, hrem.1, hrem.2, rfl⟩
            · intro hn
              exact Option.noConfusion hn
      | none =>
          refine ⟨_, rfl, rfl, rfl, by simp, ?_, ?_⟩
          · intro s'' hs
            exact Option.noConfusion hs
          · intro _
            refine ⟨?_, ?_⟩
            · intro s'' hs
              exact Option.noConfusion hs
            · intro _
              exact ⟨rfl, rfl, rfl⟩

/-- Witness for C5 at a concrete member whose trash step succeeds. -/
theorem claim_C5_witness :
    ∃ d : DeleteDetail,
      (processDeleteMember exEnv (initAcc DeleteDetail exState)
        ⟨"/d/b", 2, "2 B"⟩).details
        = (initAcc DeleteDetail exState).details ++ [d] ∧
      d.path = (⟨"/d/b", 2, "2 B"⟩ : DupEntry).path ∧
      d.size_bytes = (⟨"/d/b", 2, "2 B"⟩ : DupEntry).size_bytes ∧
      d.success = ((send2trash exEnv (initAcc DeleteDetail exState).fs "/d/b").isSome
        || (os_remove exEnv (initAcc DeleteDetail exState).fs "/d/b").isSome) ∧
      (∀ s', send2trash exEnv (initAcc DeleteDetail exState).fs "/d/b" = some s' →
        (processDeleteMember exEnv (initAcc DeleteDetail exState)
          ⟨"/d/b", 2, "2 B"⟩).fs = s' ∧
        s'.trash = (initAcc DeleteDetail exState).fs.trash ++ ["/d/b"] ∧
        s'.entries = eraseFS (initAcc DeleteDetail exState).fs.entries "/d/b" ∧
        d.error = none) ∧
      (send2trash exEnv (initAcc DeleteDetail exState).fs "/d/b" = none →
        (∀ s', os_remove exEnv (initAcc DeleteDetail exState).fs "/d/b" = some s' →
          (processDeleteMember exEnv (initAcc DeleteDetail exState)
            ⟨"/d/b", 2, "2 B"⟩).fs = s' ∧
          s'.trash = (initAcc DeleteDetail exState).fs.trash ∧
          s'.entries = eraseFS (initAcc DeleteDetail exState).fs.entries "/d/b" ∧
          d.error = none) ∧
        (os_remove exEnv (initAcc DeleteDetail exState).fs "/d/b" = none →
          (processDeleteMember exEnv (initAcc DeleteDetail exState)
            ⟨"/d/b", 2, "2 B"⟩).fs = (initAcc DeleteDetail exState).fs ∧
          d.success = false ∧ d.error.isSome = true)) :=
  claim_C5 exEnv (initAcc DeleteDetail exState) ⟨"/d/b", 2, "2 B"⟩

/-! ### Symlink consolidation: filesystem effects -/

/-- Whether a lookup result is a regular file (not a link, not absent). -/
def isRegularFile : Option FSNode → Bool
  | some (FSNode.file _ _) => true
  | _ => false

theorem lookupFS_eraseFS (es : List (String × FSNode)) (p q : String) :
    lookupFS (eraseFS es p) q = if p = q then none else lookupFS es q := by
  induction es with
  | nil => by_cases hpq : p = q <;> simp [eraseFS, lookupFS, hpq]
  | cons en rest ih =>
      obtain ⟨p', n⟩ := en
      by_cases hp : p' = p
      · subst hp
        by_cases hpq : p' = q
        · subst hpq
          simp [eraseFS, lookupFS, ih]
        · simp [eraseFS, lookupFS, hpq, ih]
      · by_cases hq : p' = q
        · subst hq
          have hpq : ¬ p = p' := fun hc => hp hc.symm
          simp [eraseFS, lookupFS, hp, hpq]
        · simp [eraseFS, lookupFS, hp, hq, ih]

theorem lookupFS_append (es1 es2 : List (String × FSNode)) (q : String) :
    lookupFS (es1 ++ es2) q =
      match lookupFS es1 q with
      | some n => some n
      | none => lookupFS es2 q := by
  induction es1 with
  | nil => simp [lookupFS]
  | cons en rest ih =>
      obtain ⟨p', n⟩ := en
      by_cases hq : p' = q <;> simp [lookupFS, hq, ih]

theorem lookupFS_setFS (es : List (String × FSNode)) (p : String) (n : FSNode)
    (q : String) :
    lookupFS (setFS es p n) q = if p = q then some n else lookupFS es q := by
  unfold setFS
  rw [lookupFS_append, lookupFS_eraseFS]
  by_cases hpq : p = q
  · simp [hpq, lookupFS]
  · simp only [hpq, if_false]
    cases hls : lookupFS es q <;> simp [lookupFS, hpq]

/-- Effect of one symlink-strategy member: only the member's path changes;
exactly one detail is appended, carrying the given source and the member's
path; on success the member's path now holds a symbolic link to the
absolute source path; counters move only on success. -/
theorem processSymlinkMember_fs (e : Env) (src : String) (acc : RunAcc LinkDetail)
    (f : DupEntry) :
    (∀ q, q ≠ f.path →
      lookupFS (processSymlinkMember e src acc f).fs.entries q
        = lookupFS acc.fs.entries q) ∧
    (processSymlinkMember e src acc f).fs.trash = acc.fs.trash ∧
    ∃ d : LinkDetail, (processSymlinkMember e src acc f).details = acc.details ++ [d] ∧
      d.source = src ∧ d.target = f.path ∧
      (d.success = true →
        lookupFS (processSymlinkMember e src acc f).fs.entries f.path
          = some (FSNode.link (e.abspath src))) := by
  unfold processSymlinkMember
  cases hrm : os_remove e acc.fs f.path with
  | some s' =>
      have hs' : s'.entries = eraseFS acc.fs.entries f.path ∧ s'.trash = acc.fs.trash := by
        unfold os_remove at hrm
        by_cases hc : (lookupFS acc.fs.entries f.path).isSome && e.removeOk f.path
        · rw [if_pos hc] at hrm
          cases Option.some_inj.mp hrm
          exact ⟨rfl, rfl⟩
        · rw [if_neg hc] at hrm
          cases hrm
      dsimp only
      cases hlk : os_symlink e s' (e.abspath src) f.path with
      | some s'' =>
          have hs'' : s''.entries = setFS s'.entries f.path (FSNode.link (e.abspath src)) ∧
              s''.trash = s'.trash := by
            unfold os_symlink at hlk
            by_cases hc : e.linkOk f.path && (lookupFS s'.entries f.path).isNone
            · rw [if_pos hc] at hlk
              cases Option.some_inj.mp hlk
              exact ⟨rfl, rfl⟩
            · rw [if_neg hc] at hlk
              cases hlk
          refine ⟨?_, by rw [hs''.2, hs'.2], _, rfl, rfl, rfl, ?_⟩
          · intro q hq
            rw [hs''.1, lookupFS_setFS, hs'.1, lookupFS_eraseFS]
            have : ¬ f.path = q := fun hc => hq hc.symm
            simp [this]
          · intro _
            rw [hs''.1, lookupFS_setFS]
            simp
      | none =>
          refine ⟨?_, by rw [hs'.2], _, rfl, rfl, rfl, fun hc => Bool.noConfusion hc⟩
          intro q hq
          rw [hs'.1, lookupFS_eraseFS]
          have : ¬ f.path = q := fun hc => hq hc.symm
          simp [this]
  | none =>
      exact ⟨fun q _ => rfl, rfl, _, rfl, rfl, rfl, fun hc => Bool.noConfusion hc⟩

/-- The survivor together with the processed members is the whole group,
up to order. -/
theorem survivor_cons_perm (e : Env) (kn : Bool) (files : List DupEntry)
    {v : DupEntry} (hv : survivorEntry e kn files = some v) :
    (v :: files_to_remove e kn files).Perm files := by
  have hperm : (sortDesc e files).Perm files := List.perm_insertionSort _ files
  unfold survivorEntry at hv
  unfold files_to_remove
  cases kn with
  | true =>
      simp only [if_pos] at hv ⊢
      cases hsc : sortDesc e files with
      | nil => rw [hsc] at hv; cases hv
      | cons a tl =>
          rw [hsc] at hv
          rw [hsc] at hperm
          obtain rfl := Option.some_inj.mp hv
          exact hperm
  | false =>
      simp only [Bool.false_eq_true, if_false] at hv ⊢
      have hne : sortDesc e files ≠ [] := by
        intro hc
        rw [hc] at hv
        cases hv
      rw [List.getLast?_eq_getLast _ hne] at hv
      obtain rfl := Option.some_inj.mp hv
      refine List.Perm.trans ?_ hperm
      have h1 : (sortDesc e files).dropLast ++ [(sortDesc e files).getLast hne]
          = sortDesc e files := List.dropLast_append_getLast hne
      have h2 := List.perm_append_singleton ((sortDesc e files).getLast hne)
        ((sortDesc e files).dropLast)
      rw [h1] at h2
      exact h2.symm

/-- The per-member workload of the symlink pass: for each group, its
survivor's path paired with every processed member, in order. -/
def symlinkJobs (e : Env) (kn : Bool) (dups : List (Nat × List DupEntry)) :
    List (String × DupEntry) :=
  dups.flatMap (fun kv =>
    match source_file e kn kv.2 with
    | some src => (files_to_remove e kn kv.2).map (fun f => (src, f))
    | none => [])

theorem symlink_run_eq_jobs (e : Env) (s : FSState)
    (dups : List (Nat × List DupEntry)) (kn : Bool) :
    replace_duplicates_with_symlinks e s dups kn
      = (symlinkJobs e kn dups).foldl
          (fun acc j => processSymlinkMember e j.1 acc j.2)
          (initAcc LinkDetail s) := by
  unfold replace_duplicates_with_symlinks symlinkJobs
  rw [foldl_flatMap_eq]
  have hstep : (fun (acc : RunAcc LinkDetail) (kv : Nat × List DupEntry) =>
      cleanGroupSymlink e kn acc kv.2)
    = (fun acc kv =>
      (match source_file e kn kv.2 with
        | some src => (files_to_remove e kn kv.2).map (fun f => (src, f))
        | none => []).foldl
        (fun (acc : RunAcc LinkDetail) (j : String × DupEntry) =>
          processSymlinkMember e j.1 acc j.2) acc) := by
    funext acc kv
    unfold cleanGroupSymlink
    cases hsf : source_file e kn kv.2 with
    | some src =>
        dsimp only
        rw [List.foldl_map]
    | none => rfl
  rw [hstep]

/-- Structural facts about the symlink workload under distinct member
paths: the processed paths are distinct, no survivor path is a processed
path, and every job's source is a survivor of its group with the job's
member in that group. -/
theorem symlinkJobs_facts (e : Env) (kn : Bool) :
    ∀ (dups : List (Nat × List DupEntry)),
      (dups.flatMap (fun kv => kv.2.map (fun en => en.path))).Nodup →
      ((symlinkJobs e kn dups).map (fun j => j.2.path)).Nodup ∧
      (∀ j ∈ symlinkJobs e kn dups, ∀ j' ∈ symlinkJobs e kn dups,
        j.1 ≠ j'.2.path) ∧
      (∀ j ∈ symlinkJobs e kn dups, ∃ kv ∈ dups,
        (∃ ven ∈ kv.2, ven.path = j.1) ∧ j.2 ∈ kv.2) := by
  intro dups
  induction dups with
  | nil => intro _; exact ⟨List.nodup_nil, by simp [symlinkJobs], by simp [symlinkJobs]⟩
  | cons kv tl ih =>
      intro hnd
      rw [List.flatMap_cons] at hnd
      rw [List.nodup_append] at hnd
      obtain ⟨hnd1, hnd2, hdisj⟩ := hnd
      obtain ⟨ih1, ih2, ih3⟩ := ih hnd2
      have hjobs_cons : symlinkJobs e kn (kv :: tl)
          = (match source_file e kn kv.2 with
            | some src => (files_to_remove e kn kv.2).map (fun f => (src, f))
            | none => []) ++ symlinkJobs e kn tl := by
        unfold symlinkJobs
        rw [List.flatMap_cons]
      -- facts about targets of the tail jobs
      have htl_target : ∀ j' ∈ symlinkJobs e kn tl,
          j'.2.path ∈ tl.flatMap (fun kv => kv.2.map (fun en => en.path)) := by
        intro j' hj'
        obtain ⟨kv', hkv', _, hj'mem⟩ := ih3 j' hj'
        rw [List.mem_flatMap]
        exact ⟨kv', hkv', List.mem_map_of_mem _ hj'mem⟩
      have htl_src : ∀ j ∈ symlinkJobs e kn tl,
          j.1 ∈ tl.flatMap (fun kv => kv.2.map (fun en => en.path)) := by
        intro j hj
        obtain ⟨kv', hkv', ⟨ven, hven, hvp⟩, _⟩ := ih3 j hj
        rw [List.mem_flatMap]
        exact ⟨kv', hkv', hvp ▸ List.mem_map_of_mem _ hven⟩
      cases hsf : source_file e kn kv.2 with
      | none =>
          rw [hjobs_cons, hsf]
          simp only [List.nil_append]
          refine ⟨ih1, ih2, ?_⟩
          intro j hj
          obtain ⟨kv', hkv', hs, hm⟩ := ih3 j hj
          exact ⟨kv', List.mem_cons_of_mem kv hkv', hs, hm⟩
      | some src =>
          obtain ⟨v, hv⟩ : ∃ v, survivorEntry e kn kv.2 = some v := by
            unfold source_file at hsf
            cases hse : survivorEntry e kn kv.2 with
            | none => rw [hse] at hsf; cases hsf
            | some v => exact ⟨v, rfl⟩
          have hsrc : v.path = src := by
            unfold source_file at hsf
            rw [hv] at hsf
            exact Option.some_inj.mp hsf
          have hgperm := survivor_cons_perm e kn kv.2 hv
          have hgpaths : ((v :: files_to_remove e kn kv.2).map
              (fun en => en.path)).Perm (kv.2.map (fun en => en.path)) :=
            hgperm.map _
          have hgnd : ((v :: files_to_remove e kn kv.2).map
              (fun en => en.path)).Nodup := (hgpaths.nodup_iff).mpr hnd1
          rw [List.map_cons, List.nodup_cons] at hgnd
          obtain ⟨hvnot, hftrnd⟩ := hgnd
          have hvpmem : v.path ∈ kv.2.map (fun en => en.path) :=
            hgpaths.mem_iff.mp (by simp)
          have hftr_sub : ∀ p ∈ (files_to_remove e kn kv.2).map (fun en => en.path),
              p ∈ kv.2.map (fun en => en.path) := by
            intro p hp
            exact hgpaths.mem_iff.mp (by simp [hp])
          have hvmem : v ∈ kv.2 := hgperm.mem_iff.mp (by simp)
          rw [hjobs_cons, hsf]
          have hmap_eq : ((files_to_remove e kn kv.2).map (fun f => (src, f))).map
              (fun j => j.2.path) = (files_to_remove e kn kv.2).map
              (fun en => en.path) := by
            rw [List.map_map]
            rfl
          refine ⟨?_, ?_, ?_⟩
          · rw [List.map_append, List.nodup_append, hmap_eq]
            refine ⟨hftrnd, ih1, ?_⟩
            intro p hp
            intro hptl
            obtain ⟨j', hj', hj'p⟩ := List.mem_map.mp hptl
            exact hdisj (hftr_sub p hp) (hj'p ▸ htl_target j' hj')
          · intro j hj j' hj'
            rcases List.mem_append.mp hj with hjh | hjt
            · obtain ⟨f, _, rfl⟩ := List.mem_map.mp hjh
              rcases List.mem_append.mp hj' with hjh' | hjt'
              · obtain ⟨f', hf', rfl⟩ := List.mem_map.mp hjh'
                intro hc
                apply hvnot
                have hvf : v.path = f'.path := by
                  rw [hsrc]
                  exact hc
                rw [hvf]
                exact List.mem_map_of_mem _ hf'
              · intro hc
                apply hdisj hvpmem
                have hvj : v.path = j'.2.path := by
                  rw [hsrc]
                  exact hc
                rw [hvj]
                exact htl_target j' hjt'
            · rcases List.mem_append.mp hj' with hjh' | hjt'
              · obtain ⟨f', hf', rfl⟩ := List.mem_map.mp hjh'
                intro hc
                apply hdisj (hftr_sub f'.path (List.mem_map_of_mem _ hf'))
                have := htl_src j hjt
                rw [hc] at this
                exact this
              · exact ih2 j hjt j' hjt'
          · intro j hj
            rcases List.mem_append.mp hj with hjh | hjt
            · obtain ⟨f, hf, rfl⟩ := List.mem_map.mp hjh
              refine ⟨kv, List.mem_cons_self kv tl, ⟨v, hvmem, hsrc⟩, ?_⟩
              exact hgperm.mem_iff.mp (by simp [hf])
            · obtain ⟨kv', hkv', hs, hm⟩ := ih3 j hjt
              exact ⟨kv', List.mem_cons_of_mem kv hkv', hs, hm⟩

/-- Fold invariant of the symlink pass over its workload: links created
for successful details persist, paths outside the processed targets keep
their nodes, the trash never changes, and the detail pairs mirror the
workload. -/
theorem symlink_fold_inv (e : Env) :
    ∀ (jobs : List (String × DupEntry)) (acc : RunAcc LinkDetail),
      ((jobs.map (fun j => j.2.path)).Nodup) →
      (∀ d ∈ acc.details, d.success = true →
        lookupFS acc.fs.entries d.target = some (FSNode.link (e.abspath d.source)) ∧
        (∀ j ∈ jobs, d.target ≠ j.2.path)) →
      (∀ d ∈ (jobs.foldl (fun acc j => processSymlinkMember e j.1 acc j.2) acc).details,
        d.success = true →
        lookupFS (jobs.foldl (fun acc j => processSymlinkMember e j.1 acc j.2)
            acc).fs.entries d.target
          = some (FSNode.link (e.abspath d.source))) ∧
      (∀ q, (∀ j ∈ jobs, q ≠ j.2.path) →
        lookupFS (jobs.foldl (fun acc j => processSymlinkMember e j.1 acc j.2)
            acc).fs.entries q
          = lookupFS acc.fs.entries q) ∧
      (jobs.foldl (fun acc j => processSymlinkMember e j.1 acc j.2) acc).fs.trash
        = acc.fs.trash ∧
      (jobs.foldl (fun acc j => processSymlinkMember e j.1 acc j.2) acc).details.map
          (fun d => (d.source, d.target))
        = acc.details.map (fun d => (d.source, d.target))
          ++ jobs.map (fun j => (j.1, j.2.path)) := by
  intro jobs
  induction jobs with
  | nil =>
      intro acc _ hacc
      refine ⟨?_, fun q _ => rfl, rfl, by simp⟩
      intro d hd hds
      exact (hacc d hd hds).1
  | cons j tl ih =>
      intro acc hnd hacc
      rw [List.map_cons, List.nodup_cons] at hnd
      obtain ⟨hjn, hnd'⟩ := hnd
      obtain ⟨hframe, htrash, d0, hdet, hds0, hdt0, hlink0⟩ :=
        processSymlinkMember_fs e j.1 acc j.2
      have hacc' : ∀ d ∈ (processSymlinkMember e j.1 acc j.2).details,
          d.success = true →
          lookupFS (processSymlinkMember e j.1 acc j.2).fs.entries d.target
            = some (FSNode.link (e.abspath d.source)) ∧
          (∀ j' ∈ tl, d.target ≠ j'.2.path) := by
        intro d hd hds
        rw [hdet] at hd
        rcases List.mem_append.mp hd with hold | hnew
        · obtain ⟨h1, h2⟩ := hacc d hold hds
          have hne2 : d.target ≠ j.2.path := h2 j (List.mem_cons_self j tl)
          exact ⟨by rw [hframe d.target hne2]; exact h1,
            fun j' hj' => h2 j' (List.mem_cons_of_mem j hj')⟩
        · have hd0 : d = d0 := by simpa using hnew
          subst hd0
          refine ⟨by rw [hdt0, hds0]; exact hlink0 hds, ?_⟩
          intro j' hj'
          rw [hdt0]
          intro hc
          apply hjn
          rw [hc]
          exact List.mem_map_of_mem _ hj'
      obtain ⟨c1, c2, c3, c4⟩ := ih (processSymlinkMember e j.1 acc j.2) hnd' hacc'
      rw [List.foldl_cons]
      refine ⟨c1, ?_, ?_, ?_⟩
      · intro q hq
        rw [c2 q (fun j' hj' => hq j' (List.mem_cons_of_mem j hj'))]
        exact hframe q (hq j (List.mem_cons_self j tl))
      · rw [c3, htrash]
      · rw [c4, hdet]
        simp [hds0, hdt0]

/-- C8: under the symlink strategy every successfully processed
non-survivor ends as a symbolic link at its own path whose stored target
is the survivor's absolute path, and that link resolves to the survivor's
original node; the survivor itself is untouched and remains a regular
file.  Hypotheses: member paths are distinct across the dictionary
(detection guarantees this), paths are already canonical for abspath, and
every member initially exists as a regular file. -/
theorem claim_C8 (e : Env) (s : FSState) (dups : List (Nat × List DupEntry))
    (kn : Bool)
    (hnd : (dups.flatMap (fun kv => kv.2.map (fun en => en.path))).Nodup)
    (habs : ∀ p, e.abspath p = p)
    (hreg : ∀ kv ∈ dups, ∀ en ∈ kv.2,
      isRegularFile (lookupFS s.entries en.path) = true) :
    ((replace_duplicates_with_symlinks e s dups kn).details.map
        (fun d => (d.source, d.target))
      = (symlinkJobs e kn dups).map (fun j => (j.1, j.2.path))) ∧
    ∀ d ∈ (replace_duplicates_with_symlinks e s dups kn).details,
      d.success = true →
      lookupFS (replace_duplicates_with_symlinks e s dups kn).fs.entries d.target
        = some (FSNode.link (e.abspath d.source)) ∧
      lookupFS (replace_duplicates_with_symlinks e s dups kn).fs.entries
          (e.abspath d.source)
        = lookupFS s.entries d.source ∧
      isRegularFile (lookupFS
        (replace_duplicates_with_symlinks e s dups kn).fs.entries d.source)
        = true := by
  obtain ⟨hjnd, hsrcn, hsrcmem⟩ := symlinkJobs_facts e kn dups hnd
  have hinit : ∀ d ∈ (initAcc LinkDetail s).details, d.success = true →
      lookupFS (initAcc LinkDetail s).fs.entries d.target
        = some (FSNode.link (e.abspath d.source)) ∧
      (∀ j ∈ symlinkJobs e kn dups, d.target ≠ j.2.path) := by
    intro d hd
    simp [initAcc] at hd
  obtain ⟨c1, c2, c3, c4⟩ :=
    symlink_fold_inv e (symlinkJobs e kn dups) (initAcc LinkDetail s) hjnd hinit
  rw [symlink_run_eq_jobs]
  constructor
  · rw [c4]
    simp [initAcc]
  · intro d hd hds
    refine ⟨c1 d hd hds, ?_, ?_⟩
    · have hpair : (d.source, d.target) ∈ (symlinkJobs e kn dups).map
          (fun j => (j.1, j.2.path)) := by
        have hmm := List.mem_map_of_mem (fun d : LinkDetail => (d.source, d.target)) hd
        rw [c4] at hmm
        simpa [initAcc] using hmm
      obtain ⟨j, hj, hjp⟩ := List.mem_map.mp hpair
      have hjsrc : j.1 = d.source := congrArg Prod.fst hjp
      rw [habs d.source]
      apply c2
      intro j' hj'
      rw [← hjsrc]
      exact hsrcn j hj j' hj'
    · have hpair : (d.source, d.target) ∈ (symlinkJobs e kn dups).map
          (fun j => (j.1, j.2.path)) := by
        have hmm := List.mem_map_of_mem (fun d : LinkDetail => (d.source, d.target)) hd
        rw [c4] at hmm
        simpa [initAcc] using hmm
      obtain ⟨j, hj, hjp⟩ := List.mem_map.mp hpair
      have hjsrc : j.1 = d.source := congrArg Prod.fst hjp
      have hsrc_frame : lookupFS ((symlinkJobs e kn dups).foldl
            (fun acc j => processSymlinkMember e j.1 acc j.2)
            (initAcc LinkDetail s)).fs.entries d.source
          = lookupFS s.entries d.source := by
        apply c2
        intro j' hj'
        rw [← hjsrc]
        exact hsrcn j hj j' hj'
      rw [hsrc_frame]
      obtain ⟨kv, hkv, ⟨ven, hven, hvp⟩, _⟩ := hsrcmem j hj
      rw [← hjsrc, ← hvp]
      exact hreg kv hkv ven hven

/-- Witness for C8 on the example run: the two non-survivors of the group
become links to the survivor, which stays a regular file. -/
theorem claim_C8_witness :
    ((replace_duplicates_with_symlinks exEnv exState exDups true).details.map
        (fun d => (d.source, d.target))
      = (symlinkJobs exEnv true exDups).map (fun j => (j.1, j.2.path))) ∧
    ∀ d ∈ (replace_duplicates_with_symlinks exEnv exState exDups true).details,
      d.success = true →
      lookupFS (replace_duplicates_with_symlinks exEnv exState exDups
          true).fs.entries d.target
        = some (FSNode.link (exEnv.abspath d.source)) ∧
      lookupFS (replace_duplicates_with_symlinks exEnv exState exDups
          true).fs.entries (exEnv.abspath d.source)
        = lookupFS exState.entries d.source ∧
      isRegularFile (lookupFS (replace_duplicates_with_symlinks exEnv exState
          exDups true).fs.entries d.source) = true :=
  claim_C8 exEnv exState exDups true (by decide) (fun _ => rfl) (by decide)

/-! ### Size formatter round trip -/

/-- Representative byte values spanning every unit of format_size. -/
def representative_sizes : List Nat :=
  [1, 512, 1023, 1024, 1536, 65536, 1048576, 123456789,
   5368709120, 1099511627776, 1125899906842624]

/-- Checks that parse_size (format_size n) recovers n within the rounding
granularity of the two-decimal rendering: half a hundredth of the unit,
plus one for the final floor (stated as 200 times the distance bounded by
the unit base plus 200). -/
def roundTripOK (n : Nat) : Bool :=
  match parse_size (format_size n) with
  | some m => 200 * (max m n - min m n) ≤ 1024 ^ unitIndex n + 200
  | none => false

/-- C9: the documented concrete values of the size formatter and parser
hold, and on representative byte values the round trip
parse_size (format_size n) recovers n up to the rounding introduced by the
two-decimal unit formatting. -/
theorem claim_C9 :
    format_size 0 = "0 B" ∧
    format_size 1536 = "1.50 KB" ∧
    parse_size "1 MB" = some 1048576 ∧
    ∀ n ∈ representative_sizes, roundTripOK n = true := by
  refine ⟨by decide, by decide, by decide, ?_⟩
  decide

/-- Witness for C9's quantified round-trip part at one representative
value. -/
theorem claim_C9_witness : roundTripOK 1536 = true :=
  claim_C9.2.2.2 1536 (by decide)

end Cleanipy
